import Mathlib

/-
A verification development for the millet static-semantics engine.

The definitions below are shallow embeddings of the Rust source:

* `Statics.*` embeds the arena/HIR-based checker generation:
  `crates/statics/src/types.rs` (types, symbol table), `crates/statics/src/ty.rs`
  and `crates/statics/src/pat.rs` (type/pattern checking), and
  `crates/sml-statics/src/st.rs` (checking state and `finish`).
* `Core.*` embeds the older monolithic checker generation:
  `crates/core/src/statics/ck/dec.rs`.
* `Tests.*` transcribes expectations recorded in the repository's own test
  corpus (`crates/tests/src/deviations/smlnj.rs`).

Rust data is mapped as follows: `Vec<T>` and `BTreeMap`/`HashMap` become
lists (sorted association lists for `BTreeMap`), `usize` ids become `Nat`,
interned strings become `String`, fallible code returns `Except`, and a
`panic!`/`todo!`/`unreachable!`/`unwrap`-on-`None` outcome is the `none`
case of an outer `Option`.  Components of the repository whose sources are
not part of the corpus (the substitution/unifier utilities, the
`pattern_match` decision procedure, and the module elaborator) are modelled
from the specification document; each such definition carries a doc comment
beginning `Modelled from the spec:`.
-/

namespace Statics

/-- Record labels (`hir::Lab`): either a named label or a numeric (tuple) label. -/
inductive Lab where
  | name (s : String)
  | num (n : Nat)
deriving DecidableEq, Repr

/-- A total comparison on labels, standing for the `Ord` instance that
`BTreeMap<hir::Lab, Ty>` sorts its keys by. -/
def Lab.leB : Lab → Lab → Bool
  | .name a, .name b => a ≤ b
  | .name _, .num _ => true
  | .num _, .name _ => false
  | .num a, .num b => a ≤ b

/-- Strict version of `Lab.leB`. -/
def Lab.ltB : Lab → Lab → Bool
  | .name a, .name b => a < b
  | .name _, .num _ => true
  | .num _, .name _ => false
  | .num a, .num b => a < b

/-- Generative type names (`Sym` in `crates/statics/src/types.rs`): an index
into the `Syms` store. -/
structure Sym where
  idx : Nat
deriving DecidableEq, Repr

/-- `Sym::BOOL`; kept in sync with the order of `Syms::default`. -/
def Sym.BOOL : Sym := ⟨0⟩

/-- `Sym::CHAR`. -/
def Sym.CHAR : Sym := ⟨1⟩

/-- `Sym::INT`. -/
def Sym.INT : Sym := ⟨2⟩

/-- `Sym::REAL`. -/
def Sym.REAL : Sym := ⟨3⟩

/-- `Sym::STRING`. -/
def Sym.STRING : Sym := ⟨4⟩

/-- `Sym::WORD`. -/
def Sym.WORD : Sym := ⟨5⟩

/-- `Sym::EXN`. -/
def Sym.EXN : Sym := ⟨6⟩

/-- `Sym::REF`. -/
def Sym.REF : Sym := ⟨7⟩

/-- `Sym::LIST`. -/
def Sym.LIST : Sym := ⟨8⟩

/-- `Sym::ORDER`. -/
def Sym.ORDER : Sym := ⟨9⟩

/-- Unification variables (`MetaTyVar`): a unique id plus an equality flag. -/
structure MetaTyVar where
  id : Nat
  equality : Bool
deriving DecidableEq, Repr

mutual
/-- The type representation `Ty` of `crates/statics/src/types.rs`.
`Ty::Record(BTreeMap<Lab, Ty>)` is represented by `Rows`, a list of
label/type entries kept sorted by `Lab.leB` at construction sites, and
`Ty::Con(Vec<Ty>, Sym)` argument vectors by `Tys`. -/
inductive Ty where
  | none
  | boundVar (bv : Nat)
  | metaVar (mv : MetaTyVar)
  | record (rows : Rows)
  | con (args : Tys) (sym : Sym)
  | fn (dom : Ty) (cod : Ty)
/-- The entry list of a record type (`BTreeMap<Lab, Ty>`). -/
inductive Rows where
  | nil
  | cons (lab : Lab) (ty : Ty) (rest : Rows)
/-- A vector of type arguments (`Vec<Ty>`). -/
inductive Tys where
  | nil
  | cons (hd : Ty) (tl : Tys)
end

/-- `Ty::zero`: a constructor type with zero arguments. -/
def Ty.zero (sym : Sym) : Ty := .con .nil sym

/-- `TyVars`: the per-bound-variable equality flags of a scheme. -/
structure TyVars where
  inner : List Bool
deriving DecidableEq, Repr

/-- `TyScheme`: a type together with its bound variables. -/
structure TyScheme where
  vars : TyVars
  ty : Ty

/-- `TyScheme::mono`. -/
def TyScheme.mono (ty : Ty) : TyScheme := ⟨⟨[]⟩, ty⟩

/-- `IdStatus`: the identifier-status tag of a value binding. -/
inductive IdStatus where
  | con
  | exn
  | val
deriving DecidableEq, Repr

/-- `ValInfo`: a type scheme plus an identifier status. -/
structure ValInfo where
  tyScheme : TyScheme
  idStatus : IdStatus

/-- `TyInfo`: display name, defining scheme, and constructor value
environment of one generative type.  The `FxHashMap` value environment is
represented as an association list in insertion order. -/
structure TyInfo where
  name : String
  tyScheme : TyScheme
  valEnv : List (String × ValInfo)

/-- The generative symbol table `Syms`: a growing store of `TyInfo`s. -/
structure Syms where
  store : List TyInfo

/-- `Syms::is_empty`. -/
def Syms.isEmpty (s : Syms) : Bool := s.store.isEmpty

/-- `Syms::insert`: mint the next `Sym` (the current store length) and append
the given `TyInfo`. -/
def Syms.insert (s : Syms) (tyInfo : TyInfo) : Sym × Syms :=
  (⟨s.store.length⟩, ⟨s.store ++ [tyInfo]⟩)

/-- `Syms::get`: look the `TyInfo` up by index; `none` stands for the
`unwrap` panic on an unknown symbol. -/
def Syms.get (s : Syms) (sym : Sym) : Option TyInfo :=
  s.store.get? sym.idx

/-- The `datatype` helper of `crates/statics/src/types.rs`: build the
`TyInfo` of a built-in datatype from its constructor list. -/
def datatypeInfo (name : String) (tyScheme : TyScheme)
    (ctors : List (String × Option Ty)) : TyInfo :=
  { name := name
    tyScheme := tyScheme
    valEnv := ctors.map fun (cname, arg) =>
      let cscheme : TyScheme :=
        match arg with
        | .none => tyScheme
        | .some arg => ⟨tyScheme.vars, .fn arg tyScheme.ty⟩
      (cname, ⟨cscheme, .con⟩) }

/-- `impl Default for Syms`: the pre-seeded table of built-in types, in the
order fixed by the `Sym` constants. -/
def Syms.default : Syms :=
  let z : Sym → TyScheme := fun s => TyScheme.mono (Ty.zero s)
  let one : Sym → TyScheme := fun s => ⟨⟨[false]⟩, .con .nil s⟩
  let bv : Ty := .boundVar 0
  { store :=
      [ datatypeInfo "bool" (z .BOOL) [("true", .none), ("false", .none)]
      , datatypeInfo "char" (z .CHAR) []
      , datatypeInfo "int" (z .INT) []
      , datatypeInfo "real" (z .REAL) []
      , datatypeInfo "string" (z .STRING) []
      , datatypeInfo "word" (z .WORD) []
      , datatypeInfo "exn" (z .EXN) []
      , datatypeInfo "ref" (one .REF) [("ref", .some bv)]
      , datatypeInfo "list" (one .LIST) [("nil", .none), ("::", .some bv)]
      , datatypeInfo "order" (z .ORDER)
          [("LESS", .none), ("EQUAL", .none), ("GREATER", .none)] ] }

/-- Iterated `Syms::insert`: thread the table through a list of `TyInfo`s,
returning the minted symbols in order.  This models a checking session in
which several datatype declarations each call `Syms::insert`. -/
def Syms.insertAll (s : Syms) : List TyInfo → List Sym × Syms
  | [] => ([], s)
  | info :: rest =>
    let (sym, s') := s.insert info
    let (syms, s'') := s'.insertAll rest
    (sym :: syms, s'')

/-- Modelled from the spec: the substitution `Subst` (its source,
`crates/sml-statics/src/types.rs`/`util.rs`, is not part of the corpus).
Per §3 it is a "monotonically growing mapping from meta variables to
resolved types (or to 'not yet resolved')"; an entry `(mv, none)` records a
not-yet-resolved variable. -/
def Subst := List (MetaTyVar × Option Ty)

/-- Look a meta variable up in a substitution, yielding its resolved type
if it has one. -/
def Subst.solved (s : Subst) (mv : MetaTyVar) : Option Ty :=
  match s.find? (fun e => e.1 == mv) with
  | .some (_, .some t) => .some t
  | _ => .none

mutual
/-- Modelled from the spec: `apply` (`crates/sml-statics/src/util.rs`, not
in the corpus), "a recursive walk" replacing each resolved meta variable by
its type. -/
def applyTy (s : Subst) : Ty → Ty
  | .none => .none
  | .boundVar bv => .boundVar bv
  | .metaVar mv =>
    match s.solved mv with
    | .some t => t
    | .none => .metaVar mv
  | .record rows => .record (applyRows s rows)
  | .con args sym => .con (applyTys s args) sym
  | .fn d c => .fn (applyTy s d) (applyTy s c)
/-- `applyTy` on the rows of a record type. -/
def applyRows (s : Subst) : Rows → Rows
  | .nil => .nil
  | .cons lab ty rest => .cons lab (applyTy s ty) (applyRows s rest)
/-- `applyTy` on a vector of type arguments. -/
def applyTys (s : Subst) : Tys → Tys
  | .nil => .nil
  | .cons hd tl => .cons (applyTy s hd) (applyTys s tl)
end

mutual
/-- A type is resolved with respect to a substitution when no meta variable
reachable in it is resolved by the substitution, so that applying the
substitution cannot change it. -/
def resolvedTy (s : Subst) : Ty → Bool
  | .none => true
  | .boundVar _ => true
  | .metaVar mv => (s.solved mv).isNone
  | .record rows => resolvedRows s rows
  | .con args _ => resolvedTys s args
  | .fn d c => resolvedTy s d && resolvedTy s c
/-- `resolvedTy` on record rows. -/
def resolvedRows (s : Subst) : Rows → Bool
  | .nil => true
  | .cons _ ty rest => resolvedTy s ty && resolvedRows s rest
/-- `resolvedTy` on a vector of type arguments. -/
def resolvedTys (s : Subst) : Tys → Bool
  | .nil => true
  | .cons hd tl => resolvedTy s hd && resolvedTys s tl
end

mutual
/-- Modelled from the spec (§4.2): which pairs of types the structural
unifier can identify.  The error type unifies with anything; records unify
row-by-row with equal label sets; constructor applications unify only when
their generative identities are equal and their arguments unify pointwise;
functions unify componentwise.  The side conditions on binding a meta
variable (occurs check, equality flag) are dropped, which only enlarges the
relation, so a non-unifiability theorem over this relation is conservative. -/
inductive Unifies : Ty → Ty → Prop where
  | errL (t : Ty) : Unifies .none t
  | errR (t : Ty) : Unifies t .none
  | metaL (mv : MetaTyVar) (t : Ty) : Unifies (.metaVar mv) t
  | metaR (mv : MetaTyVar) (t : Ty) : Unifies t (.metaVar mv)
  | record {r1 r2 : Rows} : UnifiesRows r1 r2 → Unifies (.record r1) (.record r2)
  | con {a1 a2 : Tys} {sym : Sym} :
      UnifiesTys a1 a2 → Unifies (.con a1 sym) (.con a2 sym)
  | fn {d1 c1 d2 c2 : Ty} :
      Unifies d1 d2 → Unifies c1 c2 → Unifies (.fn d1 c1) (.fn d2 c2)
/-- Pointwise unification of argument vectors of equal length. -/
inductive UnifiesTys : Tys → Tys → Prop where
  | nil : UnifiesTys .nil .nil
  | cons {t1 t2 : Ty} {r1 r2 : Tys} :
      Unifies t1 t2 → UnifiesTys r1 r2 → UnifiesTys (.cons t1 r1) (.cons t2 r2)
/-- Row-by-row unification: label sets must match exactly. -/
inductive UnifiesRows : Rows → Rows → Prop where
  | nil : UnifiesRows .nil .nil
  | cons (lab : Lab) {t1 t2 : Ty} {r1 r2 : Rows} :
      Unifies t1 t2 → UnifiesRows r1 r2 → UnifiesRows (.cons lab t1 r1) (.cons lab t2 r2)
end

/-- `MetaTyVarGen::gen` (from `crates/statics/src/types.rs`): the generator
is its next fresh id. -/
def genMeta (n : Nat) (equality : Bool) : MetaTyVar × Nat :=
  (⟨n, equality⟩, n + 1)

/-- `MetaTyVarGen::gen_from_ty_vars`: one fresh meta variable per bound
variable of a scheme, carrying its equality flag. -/
def genFromTyVars (n : Nat) (vars : TyVars) : List MetaTyVar × Nat :=
  match vars.inner with
  | flags => (flags.enum.map (fun p => ⟨n + p.1, p.2⟩), n + flags.length)

mutual
/-- Replace bound variable `i` by the `i`-th freshly generated meta
variable; the walk of `instantiate`. -/
def instantiateTy (metas : List MetaTyVar) : Ty → Ty
  | .none => .none
  | .boundVar bv =>
    match metas.get? bv with
    | .some mv => .metaVar mv
    | .none => .boundVar bv
  | .metaVar mv => .metaVar mv
  | .record rows => .record (instantiateRows metas rows)
  | .con args sym => .con (instantiateTys metas args) sym
  | .fn d c => .fn (instantiateTy metas d) (instantiateTy metas c)
/-- `instantiateTy` on record rows. -/
def instantiateRows (metas : List MetaTyVar) : Rows → Rows
  | .nil => .nil
  | .cons lab ty rest => .cons lab (instantiateTy metas ty) (instantiateRows metas rest)
/-- `instantiateTy` on argument vectors. -/
def instantiateTys (metas : List MetaTyVar) : Tys → Tys
  | .nil => .nil
  | .cons hd tl => .cons (instantiateTy metas hd) (instantiateTys metas tl)
end

/-- Modelled from the spec (glossary): "instantiating a scheme replaces
bound variables with fresh unification variables"; the fresh variables come
from `gen_from_ty_vars`.  Returns the instantiated type and the advanced
generator. -/
def instantiate (n : Nat) (scheme : TyScheme) : Ty × Nat :=
  let (metas, n') := genFromTyVars n scheme.vars
  (instantiateTy metas scheme.ty, n')

/-- The constructor heads of the `pat_match` pattern abstraction (`Con`),
reconstructed from its uses in `crates/statics/src/pat.rs`. -/
inductive Con where
  | any
  | int (i : Int)
  | word (w : Nat)
  | char (c : Char)
  | string (s : String)
  | variant (sym : Sym) (name : String)
  | record (labs : List Lab)
deriving DecidableEq, Repr

mutual
/-- The `pat_match` pattern abstraction `Pat`: a constructor head, its
sub-patterns, and the originating HIR node index. -/
inductive Pat where
  | mk (con : Con) (args : Pats) (idx : Nat)
/-- Sub-pattern vectors of a `Pat`. -/
inductive Pats where
  | nil
  | cons (hd : Pat) (tl : Pats)
end

/-- `Pat::zero`: a pattern with no sub-patterns. -/
def Pat.zero (con : Con) (idx : Nat) : Pat := .mk con .nil idx

/-- `Pat::con`: a pattern with sub-patterns. -/
def Pat.conP (con : Con) (args : Pats) (idx : Nat) : Pat := .mk con args idx

/-- The head constructor of a `Pat`. -/
def Pat.con : Pat → Con
  | .mk c _ _ => c

/-- The sub-patterns of a `Pat`. -/
def Pat.args : Pat → Pats
  | .mk _ a _ => a

/-- The originating node index of a `Pat`. -/
def Pat.idx : Pat → Nat
  | .mk _ _ i => i

/-- The error kinds of the arena-based checker (`ErrorKind` of
`crates/sml-statics/src/error.rs`), restricted to the variants used by the
embedded code. -/
inductive ErrorKind where
  | expHole (ty : Ty)
  | nonExhaustiveBinding (missing : List Pat)
  | nonExhaustiveCase (missing : List Pat)
  | unreachablePattern
  | realPat
  | undefined
  | patValIdStatus
  | patMustNotHaveArg
  | patMustHaveArg
  | duplicateLab (lab : Lab)

/-- An error tagged with the HIR node (`sml_hir::Idx`, here a `Nat`) where
it was detected. -/
structure Error where
  idx : Nat
  kind : ErrorKind

/-- `Lang`: the data the pattern-match checker needs, namely the symbol
table. -/
structure Lang where
  syms : Syms

/-- The result of `pattern_match::check`: per-arm unreachability (an entry
per arm, `some idx` when that arm is unreachable) and the missing
witnesses. -/
structure CheckResult where
  unreachable : List (Option Nat)
  missing : List Pat

/-- The interface of `pattern_match::check`, whose source is not part of
the corpus; `St::finish` and `get_match` are parameterized over it. -/
def CheckFn := Lang → List Pat → Ty → Except Unit CheckResult

/-- The kind of a deferred match obligation (`MatchKind` of
`crates/sml-statics/src/st.rs`). -/
inductive MatchKind where
  | bind (pat : Pat)
  | case (pats : List Pat)
  | handle (pats : List Pat)

/-- A deferred match obligation (`Match`): its kind, the expected type, and
the originating node. -/
structure Match where
  kind : MatchKind
  want : Ty
  idx : Nat

/-- The checking state `St` of `crates/sml-statics/src/st.rs`.  The two
variable generators are their next fresh ids, and the per-node type store
`Info` is an association list from node index to type. -/
structure St where
  subst : Subst
  errors : List Error
  metaGen : Nat
  fixedGen : Nat
  info : List (Nat × Ty)
  matches' : List Match
  holes : List (MetaTyVar × Nat)
  syms : Syms

/-- `St::err`: push an error. -/
def St.err (st : St) (idx : Nat) (kind : ErrorKind) : St :=
  { st with errors := st.errors ++ [⟨idx, kind⟩] }

/-- `St::insert_bind`: defer a binding obligation. -/
def St.insertBind (st : St) (pat : Pat) (want : Ty) (idx : Nat) : St :=
  { st with matches' := st.matches' ++ [⟨.bind pat, want, idx⟩] }

/-- `St::insert_case`: defer a case obligation. -/
def St.insertCase (st : St) (pats : List Pat) (want : Ty) (idx : Nat) : St :=
  { st with matches' := st.matches' ++ [⟨.case pats, want, idx⟩] }

/-- `St::insert_handle`: defer a handle obligation. -/
def St.insertHandle (st : St) (pats : List Pat) (want : Ty) (idx : Nat) : St :=
  { st with matches' := st.matches' ++ [⟨.handle pats, want, idx⟩] }

/-- `get_match` of `crates/sml-statics/src/st.rs`: run the pattern-match
checker; on its failure return no missing patterns (earlier errors already
covered it); otherwise report each unreachable arm in ascending node order
and return the missing patterns. -/
def getMatch (cf : CheckFn) (errors : List Error) (lang : Lang)
    (pats : List Pat) (ty : Ty) : List Error × List Pat :=
  match cf lang pats ty with
  | .error _ => (errors, [])
  | .ok ck =>
    let unreachable :=
      (ck.unreachable.reduceOption).insertionSort (fun a b => a ≤ b)
    (errors ++ unreachable.map (fun idx => ⟨idx, .unreachablePattern⟩), ck.missing)

/-- The body of the per-obligation loop in `St::finish`: apply the final
substitution to the expected type, run `get_match`, and report
non-exhaustiveness for binding and case (but not handle) obligations. -/
def matchStep (cf : CheckFn) (lang : Lang) (subst : Subst)
    (errors : List Error) (m : Match) : List Error :=
  let want := applyTy subst m.want
  match m.kind with
  | .bind pat =>
    let (errors, missing) := getMatch cf errors lang [pat] want
    if missing.isEmpty then errors
    else errors ++ [⟨m.idx, .nonExhaustiveBinding missing⟩]
  | .case pats =>
    let (errors, missing) := getMatch cf errors lang pats want
    if missing.isEmpty then errors
    else errors ++ [⟨m.idx, .nonExhaustiveCase missing⟩]
  | .handle pats => (getMatch cf errors lang pats want).1

/-- `St::finish`: report each deferred hole, resolve each deferred match
obligation in insertion order, and apply the final substitution to every
recorded per-node type.  Parameterized over the pattern-match checker. -/
def St.finish (cf : CheckFn) (st : St) : Syms × List Error × List (Nat × Ty) :=
  let lang : Lang := ⟨st.syms⟩
  let errors := st.errors ++
    st.holes.map (fun h => ⟨h.2, .expHole (applyTy st.subst (.metaVar h.1))⟩)
  let errors := st.matches'.foldl (matchStep cf lang st.subst) errors
  (lang.syms, errors, st.info.map (fun p => (p.1, applyTy st.subst p.2)))

/-- Whether a constructor's value scheme takes no argument (its type is a
plain constructor application, not an arrow). -/
def ValInfo.isZeroArity (vi : ValInfo) : Bool :=
  match vi.tyScheme.ty with
  | .con _ _ => true
  | _ => false

/-- The constructor names of a type, in declaration order. -/
def TyInfo.ctorNames (ti : TyInfo) : List String := ti.valEnv.map (·.1)

/-- Whether a pattern is a simple column over the family of `sym`: a
wildcard or an argumentless variant of that family. -/
def simpleColumnPat (sym : Sym) (names : List String) : Pat → Bool
  | .mk .any .nil _ => true
  | .mk (.variant sym' name) .nil _ => sym' == sym && names.contains name
  | _ => false

/-- One step of the column scan: given the constructors covered so far and
whether a wildcard already covered everything, decide the arms in order.
Returns the per-arm unreachability entries and the final coverage. -/
def columnScan (family : List String) :
    List Pat → List String → Bool → List (Option Nat) × List String × Bool
  | [], covered, allCov => ([], covered, allCov)
  | p :: rest, covered, allCov =>
    match p with
    | .mk .any _ idx =>
      if allCov || family.all (covered.contains ·) then
        let (u, cov, ac) := columnScan family rest covered allCov
        (.some idx :: u, cov, ac)
      else
        let (u, cov, ac) := columnScan family rest covered true
        (.none :: u, cov, ac)
    | .mk (.variant _ name) _ idx =>
      if allCov || covered.contains name then
        let (u, cov, ac) := columnScan family rest covered allCov
        (.some idx :: u, cov, ac)
      else
        let (u, cov, ac) := columnScan family rest (covered ++ [name]) allCov
        (.none :: u, cov, ac)
    | .mk _ _ _ =>
      let (u, cov, ac) := columnScan family rest covered allCov
      (.none :: u, cov, ac)

/-- Modelled from the spec (§4.3): the pattern-match decision procedure for
a target type whose constructor family is enumerable and argumentless
(such as `bool`).  It enumerates the family from the symbol table, marks an
arm unreachable when every value it could match was covered by earlier
arms, and returns one witness per uncovered constructor, in construction
order over the family.  Inputs outside this fragment fail early, matching
the checker's silent-failure contract for ill-formed input. -/
def specCheck : CheckFn := fun lang pats ty =>
  match ty with
  | .con .nil sym =>
    match lang.syms.get sym with
    | .none => .error ()
    | .some ti =>
      if ti.valEnv.isEmpty then .error ()
      else if !(ti.valEnv.all (fun e => e.2.isZeroArity)) then .error ()
      else if !(pats.all (simpleColumnPat sym ti.ctorNames)) then .error ()
      else
        let family := ti.ctorNames
        let (unreachable, covered, allCov) := columnScan family pats [] false
        let missing :=
          if allCov then []
          else
            (family.filter (fun n => !covered.contains n)).map
              (fun n => Pat.zero (.variant sym n) 0)
        .ok ⟨unreachable, missing⟩
  | _ => .error ()

/-- A long identifier (`hir::Path`): a list of structure names and a final
name. -/
structure Path where
  structures : List String
  last : String
deriving DecidableEq, Repr

/-- Special constants (`hir::SCon`).  The payload of a real literal is
never consumed by the checker (the arm reports an error and uses a wildcard
pattern), so it is not represented. -/
inductive SCon where
  | int (i : Int)
  | real
  | word (w : Nat)
  | char (c : Char)
  | string (s : String)
deriving DecidableEq, Repr

mutual
/-- HIR types (`hir::Ty`), as trees: the arena indices of the Rust HIR are
replaced by direct subterms, which models exactly the acyclic arenas the
lowering collaborator produces. -/
inductive HTy where
  | none
  | var (v : String)
  | record (rows : HRows)
  | con (args : HTys) (path : Path)
  | fn (param : HTy) (res : HTy)
/-- The rows of a HIR record type. -/
inductive HRows where
  | nil
  | cons (lab : Lab) (ty : HTy) (rest : HRows)
/-- A vector of HIR type arguments. -/
inductive HTys where
  | nil
  | cons (hd : HTy) (tl : HTys)
end

mutual
/-- HIR patterns (`hir::Pat`), as trees; each node carries its arena index
(`hir::PatIdx`, a `Nat`). -/
inductive HPat where
  | noneP (idx : Nat)
  | wild (idx : Nat)
  | scon (sc : SCon) (idx : Nat)
  | con (path : Path) (arg : HPatArg) (idx : Nat)
  | record (rows : HPRows) (allowsOther : Bool) (idx : Nat)
  | typed (pat : HPat) (ty : HTy) (idx : Nat)
  | asPat (name : String) (pat : HPat) (idx : Nat)
/-- The optional argument of a constructor pattern (`Option<PatIdx>`). -/
inductive HPatArg where
  | none
  | some (pat : HPat)
/-- The rows of a HIR record pattern. -/
inductive HPRows where
  | nil
  | cons (lab : Lab) (pat : HPat) (rest : HPRows)
end

/-- Environments (`Env` of `crates/statics/src/types.rs`): structure, type
and value environments, each an association list. -/
inductive Env where
  | mk (strEnv : List (String × Env)) (tyEnv : List (String × Sym))
      (valEnv : List (String × ValInfo))

/-- The structure environment of an `Env`. -/
def Env.strEnv : Env → List (String × Env)
  | .mk s _ _ => s

/-- The type environment of an `Env`. -/
def Env.tyEnv : Env → List (String × Sym)
  | .mk _ t _ => t

/-- The value environment of an `Env`. -/
def Env.valEnv : Env → List (String × ValInfo)
  | .mk _ _ v => v

/-- The context `Cx` of `crates/statics/src/types.rs`. -/
structure Cx where
  env : Env

/-- Modelled from the spec: `get_env` (`crates/sml-statics/src/util.rs`,
not in the corpus) resolves the structure prefix of a path against the
ambient environment, failing on an undefined structure name. -/
def getEnv (env : Env) : List String → Except Unit Env
  | [] => .ok env
  | s :: rest =>
    match env.strEnv.find? (fun e => e.1 == s) with
    | .some (_, e) => getEnv e rest
    | .none => .error ()

/-- One `BTreeMap` insertion into a label-sorted row list, replacing an
existing entry with the same label. -/
def insertRow (lab : Lab) (ty : Ty) : List (Lab × Ty) → List (Lab × Ty)
  | [] => [(lab, ty)]
  | (l, t) :: rest =>
    if lab = l then (lab, ty) :: rest
    else if Lab.ltB lab l then (lab, ty) :: (l, t) :: rest
    else (l, t) :: insertRow lab ty rest

/-- Collecting rows into a `BTreeMap<Lab, Ty>`: fold `insertRow` over the
entries in order. -/
def mapOfRows (entries : List (Lab × Ty)) : List (Lab × Ty) :=
  entries.foldl (fun acc e => insertRow e.1 e.2 acc) []

/-- Convert an entry list into the `Rows` representation. -/
def Rows.ofList : List (Lab × Ty) → Rows
  | [] => .nil
  | (l, t) :: rest => .cons l t (Rows.ofList rest)

/-- The duplicate-label scan of `buildRecord`: one error per entry whose
label was already seen. -/
def dupLabErrors : List (Lab × Ty) → List Lab → List ErrorKind
  | [], _ => []
  | (l, _) :: rest, seen =>
    if seen.contains l then .duplicateLab l :: dupLabErrors rest seen
    else dupLabErrors rest (seen ++ [l])

/-- Modelled from the spec: the `record` row-building utility
(`crates/sml-statics/src/util.rs`, not in the corpus) — "records/tuples
build row types with duplicate-label detection".  Given the already-checked
entries in syntactic order it reports each duplicate label and builds the
row map. -/
def buildRecord (entries : List (Lab × Ty)) (errors : List ErrorKind) :
    Ty × List ErrorKind :=
  let dupErrs := dupLabErrors entries []
  (.record (Rows.ofList (mapOfRows entries)), errors ++ dupErrs)

mutual
/-- `get` of `crates/statics/src/ty.rs`: check a HIR type.  The error list
of the checking state is threaded explicitly; the outer `Option` is `none`
exactly when the Rust code panics — in particular the `hir::Ty::Var` arm is
`todo!()` and therefore always panics. -/
def tyGet (cx : Cx) (errors : List ErrorKind) :
    HTy → Option (Ty × List ErrorKind)
  | .none => .some (.none, errors)
  | .var _ => .none
  | .record rows => do
    let (entries, errors) ← tyGetRows cx errors rows
    let (ty, errors) := buildRecord entries errors
    .some (ty, errors)
  | .con args path =>
    match getEnv cx.env path.structures with
    | .error _ => .some (.none, errors ++ [.undefined])
    | .ok env =>
      match env.tyEnv.find? (fun e => e.1 == path.last) with
      | .none => .some (.none, errors ++ [.undefined])
      | .some (_, sym) => do
        let (args', errors) ← tyGetList cx errors args
        .some (.con args' sym, errors)
  | .fn param res => do
    let (param', errors) ← tyGet cx errors param
    let (res', errors) ← tyGet cx errors res
    .some (.fn param' res', errors)
/-- `tyGet` over the rows of a record type, collecting checked entries. -/
def tyGetRows (cx : Cx) (errors : List ErrorKind) :
    HRows → Option (List (Lab × Ty) × List ErrorKind)
  | .nil => .some ([], errors)
  | .cons lab ty rest => do
    let (ty', errors) ← tyGet cx errors ty
    let (entries, errors) ← tyGetRows cx errors rest
    .some ((lab, ty') :: entries, errors)
/-- `tyGet` over a vector of type arguments. -/
def tyGetList (cx : Cx) (errors : List ErrorKind) :
    HTys → Option (Tys × List ErrorKind)
  | .nil => .some (.nil, errors)
  | .cons hd tl => do
    let (hd', errors) ← tyGet cx errors hd
    let (tl', errors) ← tyGetList cx errors tl
    .some (.cons hd' tl', errors)
end

/-- Modelled from the spec: `get_scon` maps each literal constant to its
fixed base type ("literals map to their fixed base type"). -/
def getScon : SCon → Ty
  | .int _ => .con .nil .INT
  | .real => .con .nil .REAL
  | .word _ => .con .nil .WORD
  | .char _ => .con .nil .CHAR
  | .string _ => .con .nil .STRING

/-- The state visible to `pat.rs`: errors (kind-only in this checker
generation), the meta-variable generator, and the substitution. -/
structure PSt where
  errors : List ErrorKind
  metaGen : Nat
  subst : Subst

/-- The interface of `unify` (`crates/sml-statics/src/unify.rs`, not in the
corpus): it extends the substitution and may record errors.  The pattern
checker is parameterized over it; none of the theorems below depend on its
behaviour. -/
def UnifyFn := Subst → Ty → Ty → Subst × List ErrorKind

/-- Whether an optional constructor argument is absent. -/
def HPatArg.isNone' : HPatArg → Bool
  | .none => true
  | .some _ => false

/-- The `any` helper of `crates/statics/src/pat.rs`: a wildcard pattern
with a fresh meta-variable type. -/
def patAny (pst : PSt) (idx : Nat) : (Pat × Ty) × PSt :=
  let (mv, n) := genMeta pst.metaGen false
  ((Pat.zero .any idx, .metaVar mv), { pst with metaGen := n })

mutual
/-- `get` of `crates/statics/src/pat.rs`: check a HIR pattern, producing
the `pat_match` abstraction and the pattern's type.  `uf` stands for the
out-of-corpus `unify`.  The outer `Option` is `none` exactly when the Rust
code panics: the `todo!()` on a record pattern that allows other rows, and
the two `unreachable!()`s on a constructor whose instantiated scheme is not
of constructor shape. -/
def patGet (uf : UnifyFn) (cx : Cx) (pst : PSt) :
    HPat → Option ((Pat × Ty) × PSt)
  | .noneP idx => .some ((Pat.zero .any idx, .none), pst)
  | .wild idx => .some (patAny pst idx)
  | .scon sc idx =>
    let (con, pst) :=
      match sc with
      | .int i => (Con.int i, pst)
      | .real => (Con.any, { pst with errors := pst.errors ++ [.realPat] })
      | .word w => (Con.word w, pst)
      | .char c => (Con.char c, pst)
      | .string s => (Con.string s, pst)
    .some ((Pat.zero con idx, getScon sc), pst)
  | .con path arg idx =>
    let isVar := arg.isNone' && path.structures.isEmpty &&
      !(cx.env.valEnv.any (fun e => e.1 == path.last))
    if isVar then .some (patAny pst idx)
    else do
      let (argRes, pst) ← patGetArg uf cx pst arg
      match getEnv cx.env path.structures with
      | .error _ =>
        let pst := { pst with errors := pst.errors ++ [.undefined] }
        .some (patAny pst idx)
      | .ok env =>
        match env.valEnv.find? (fun e => e.1 == path.last) with
        | .none =>
          let pst := { pst with errors := pst.errors ++ [.undefined] }
          .some (patAny pst idx)
        | .some (_, valInfo) =>
          let pst :=
            if valInfo.idStatus = .val then
              { pst with errors := pst.errors ++ [.patValIdStatus] }
            else pst
          let (ty, n) := instantiate pst.metaGen valInfo.tyScheme
          let pst := { pst with metaGen := n }
          match ty with
          | .con cargs csym =>
            let pst :=
              if argRes.isSome then
                { pst with errors := pst.errors ++ [.patMustNotHaveArg] }
              else pst
            .some ((Pat.conP (.variant csym path.last) .nil idx,
              .con cargs csym), pst)
          | .fn paramTy resTy =>
            match resTy with
            | .con rargs rsym =>
              match argRes with
              | .none =>
                let pst :=
                  { pst with errors := pst.errors ++ [.patMustHaveArg] }
                .some ((Pat.conP (.variant rsym path.last)
                  (.cons (Pat.zero .any idx) .nil) idx, .con rargs rsym), pst)
              | .some (argPat, argTy) =>
                let (subst', errs) := uf pst.subst paramTy argTy
                let pst := { pst with
                  subst := subst'
                  errors := pst.errors ++ errs }
                let res := applyTy pst.subst (.con rargs rsym)
                .some ((Pat.conP
                  (.variant rsym path.last) (.cons argPat .nil) idx, res), pst)
            | _ => .none
          | _ => .none
  | .record rows allowsOther idx =>
    if allowsOther then .none
    else do
      let (labs, pats, entries, pst) ← patGetRows uf cx pst rows
      let (ty, errors) := buildRecord entries pst.errors
      .some ((Pat.conP (.record labs) pats idx, ty),
        { pst with errors := errors })
  | .typed pat want idx => do
    let ((pmPat, got), pst) ← patGet uf cx pst pat
    let _ := idx
    let (want', errors) ← tyGet cx pst.errors want
    let (subst', errs) := uf pst.subst want' got
    let pst := { pst with
      subst := subst'
      errors := errors ++ errs }
    .some ((pmPat, applyTy pst.subst want'), pst)
  | .asPat _ pat _ => patGet uf cx pst pat
/-- `patGet` on the optional constructor argument. -/
def patGetArg (uf : UnifyFn) (cx : Cx) (pst : PSt) :
    HPatArg → Option (Option (Pat × Ty) × PSt)
  | .none => .some (.none, pst)
  | .some pat => do
    let (r, pst) ← patGet uf cx pst pat
    .some (.some r, pst)
/-- `patGet` over the rows of a record pattern, collecting the labels, the
sub-patterns, and the checked row entries. -/
def patGetRows (uf : UnifyFn) (cx : Cx) (pst : PSt) :
    HPRows → Option (List Lab × Pats × List (Lab × Ty) × PSt)
  | .nil => .some ([], .nil, [], pst)
  | .cons lab pat rest => do
    let ((pmPat, ty), pst) ← patGet uf cx pst pat
    let (labs, pats, entries, pst) ← patGetRows uf cx pst rest
    .some (lab :: labs, .cons pmPat pats, (lab, ty) :: entries, pst)
end

/-- The default environment: the type and value environments induced by the
default symbol table (each built-in type name bound to its `Sym`, each
built-in constructor bound to its `ValInfo`), as pre-loaded by the standard
basis. -/
def Env.default : Env :=
  .mk []
    ((Syms.default.store.enum).map (fun p => (p.2.name, ⟨p.1⟩)))
    (Syms.default.store.flatMap (fun ti => ti.valEnv))

end Statics

namespace Core

/-- Interned strings (`StrRef`) of the older checker generation. -/
def StrRef := String
deriving instance DecidableEq, Repr for StrRef

/-- `StrRef::TRUE`. -/
def StrRef.TRUE : StrRef := "true"

/-- `StrRef::FALSE`. -/
def StrRef.FALSE : StrRef := "false"

/-- `StrRef::NIL`. -/
def StrRef.NIL : StrRef := "nil"

/-- `StrRef::CONS`. -/
def StrRef.CONS : StrRef := "::"

/-- `StrRef::REF`. -/
def StrRef.REF : StrRef := "ref"

/-- Record labels of the older checker's AST (`ast::Label`). -/
inductive CLabel where
  | vid (s : StrRef)
  | num (n : Nat)
deriving DecidableEq, Repr

/-- The errors of the older checker (`StaticsError`), restricted to the
variants used by the embedded code and the modelled elaborator fragment. -/
inductive StaticsError where
  | duplicateLabel (lab : CLabel)
  | todoErr
  | tyNameEscape
  | nonExhaustiveMatch
  | nonExhaustiveBinding
  | forbiddenBinding (name : StrRef)
  | redefined (name : StrRef)
  | undefinedType (name : StrRef)
  | cannotShareTypeAbbreviations
deriving DecidableEq, Repr

/-- A value tagged with its source location (`Located<T>`); locations are
opaque `Nat`s. -/
structure Located (α : Type) where
  loc : Nat
  val : α
deriving DecidableEq, Repr

/-- `ck_binding` of `crates/core/src/statics/ck/dec.rs`: reject binding a
name that is one of the built-in constructors `true`, `false`, `nil`,
`::`, `ref`. -/
def ckBinding (name : Located StrRef) : Except (Located StaticsError) Unit :=
  if name.val = StrRef.TRUE ∨ name.val = StrRef.FALSE ∨ name.val = StrRef.NIL ∨
      name.val = StrRef.CONS ∨ name.val = StrRef.REF then
    .error ⟨name.loc, .forbiddenBinding name.val⟩
  else .ok ()

/-- Generative symbols of the older checker: the declared name plus a
fresh id (`State::new_sym` takes the `Located<StrRef>` name). -/
structure CoreSym where
  name : StrRef
  id : Nat
deriving DecidableEq, Repr

mutual
/-- The older checker's type representation (`types::Ty`): unification
variables, records as label/type vectors in syntactic order, arrows, and
constructor applications. -/
inductive CoreTy where
  | var (tv : Nat)
  | record (rows : CRows)
  | arrow (dom : CoreTy) (cod : CoreTy)
  | ctor (args : CoreTys) (sym : CoreSym)
/-- The row vector of an older-generation record type. -/
inductive CRows where
  | nil
  | cons (lab : CLabel) (ty : CoreTy) (rest : CRows)
/-- Constructor-argument vectors. -/
inductive CoreTys where
  | nil
  | cons (hd : CoreTy) (tl : CoreTys)
end

/-- `Ty::INT`: the base types are zero-argument constructor applications of
pre-seeded symbols (ids in the pre-seeding order). -/
def CoreTy.INT : CoreTy := .ctor .nil ⟨"int", 2⟩

/-- `Ty::WORD`. -/
def CoreTy.WORD : CoreTy := .ctor .nil ⟨"word", 5⟩

/-- `Ty::REAL`. -/
def CoreTy.REAL : CoreTy := .ctor .nil ⟨"real", 3⟩

/-- `Ty::STRING`. -/
def CoreTy.STRING : CoreTy := .ctor .nil ⟨"string", 4⟩

/-- `Ty::CHAR`. -/
def CoreTy.CHAR : CoreTy := .ctor .nil ⟨"char", 1⟩

/-- The older checker's type schemes (`TyScheme`). -/
structure CoreTyScheme where
  tyVars : List Nat
  ty : CoreTy

/-- `TyScheme::mono`. -/
def CoreTyScheme.mono (ty : CoreTy) : CoreTyScheme := ⟨[], ty⟩

/-- An entry of the older checker's type environment (`types::TyInfo`):
either an abbreviation or a generative datatype. -/
inductive CTyInfo where
  | alias (scheme : CoreTyScheme)
  | datatype (sym : CoreSym)

mutual
/-- `Ty::ty_names`: the set (here: list) of type names mentioned by a type,
used by the scope-escape check of the `let` arm. -/
def tyNames : CoreTy → List StrRef
  | .var _ => []
  | .record rows => tyNamesRows rows
  | .arrow dom cod => tyNames dom ++ tyNames cod
  | .ctor args sym => sym.name :: tyNamesList args
/-- `tyNames` over record rows. -/
def tyNamesRows : CRows → List StrRef
  | .nil => []
  | .cons _ ty rest => tyNames ty ++ tyNamesRows rest
/-- `tyNames` over argument vectors. -/
def tyNamesList : CoreTys → List StrRef
  | .nil => []
  | .cons hd tl => tyNames hd ++ tyNamesList tl
end

/-- Whether every type name of `ty` is in scope (`ty.ty_names().is_subset`). -/
def tyNamesSubset (ty : CoreTy) (names : List StrRef) : Bool :=
  (tyNames ty).all (fun n => names.contains n)

/-- Modelled from the spec: the older checker's substitution, a mapping
from unification variables to types. -/
def CoreSubst := List (Nat × CoreTy)

/-- Look a unification variable up in a substitution. -/
def CoreSubst.find (s : CoreSubst) (tv : Nat) : Option CoreTy :=
  match s.find? (fun e => e.1 == tv) with
  | .some (_, t) => .some t
  | .none => .none

mutual
/-- Modelled from the spec: `Ty::apply`, the recursive walk replacing each
substituted unification variable by its type. -/
def coreApply (s : CoreSubst) : CoreTy → CoreTy
  | .var tv =>
    match s.find tv with
    | .some t => t
    | .none => .var tv
  | .record rows => .record (coreApplyRows s rows)
  | .arrow dom cod => .arrow (coreApply s dom) (coreApply s cod)
  | .ctor args sym => .ctor (coreApplyList s args) sym
/-- `coreApply` over record rows. -/
def coreApplyRows (s : CoreSubst) : CRows → CRows
  | .nil => .nil
  | .cons lab ty rest => .cons lab (coreApply s ty) (coreApplyRows s rest)
/-- `coreApply` over argument vectors. -/
def coreApplyList (s : CoreSubst) : CoreTys → CoreTys
  | .nil => .nil
  | .cons hd tl => .cons (coreApply s hd) (coreApplyList s tl)
end

/-- The older checker's value-environment entries; only the scheme matters
for the embedded fragment. -/
structure CValInfo where
  tyScheme : CoreTyScheme

/-- The older checker's environments (`types::Env`): structure, type and
value environments as association lists where an earlier entry shadows a
later one (lookup finds the first match). -/
inductive CEnv where
  | mk (strEnv : List (StrRef × CEnv)) (tyEnv : List (StrRef × CTyInfo))
      (valEnv : List (StrRef × CValInfo))

/-- The structure environment of a `CEnv`. -/
def CEnv.strEnv : CEnv → List (StrRef × CEnv)
  | .mk s _ _ => s

/-- The type environment of a `CEnv`. -/
def CEnv.tyEnv : CEnv → List (StrRef × CTyInfo)
  | .mk _ t _ => t

/-- The value environment of a `CEnv`. -/
def CEnv.valEnv : CEnv → List (StrRef × CValInfo)
  | .mk _ _ v => v

/-- `Env::default()`: the empty environment. -/
def CEnv.default : CEnv := .mk [] [] []

/-- Modelled from the spec: `Env::extend` — "later bindings shadow earlier
ones by replacement"; the extending environment's entries take precedence. -/
def CEnv.extend (env other : CEnv) : CEnv :=
  .mk (other.strEnv ++ env.strEnv) (other.tyEnv ++ env.tyEnv)
    (other.valEnv ++ env.valEnv)

/-- The older checker's context (`types::Cx`): the set (here: list) of type
names in scope plus the environment. -/
structure CCx where
  tyNames : List StrRef
  env : CEnv

/-- Modelled from the spec: `Cx::o_plus`, extending the context's
environment with an environment delta. -/
def CCx.oPlus (cx : CCx) (env : CEnv) : CCx :=
  { cx with env := cx.env.extend env }

/-- The older checker's `State`, restricted to the field the embedded
fragment reads (the substitution). -/
structure CoreState where
  subst : CoreSubst

mutual
/-- The older checker's expression AST (`ast::Exp`), restricted to the
literal, record, `Sequence` and `Let` forms whose `ck_exp` arms are
embedded below; every node carries its `Loc`. -/
inductive CExp where
  | decInt (n : Int) (loc : Nat)
  | hexInt (n : Int) (loc : Nat)
  | decWord (n : Nat) (loc : Nat)
  | hexWord (n : Nat) (loc : Nat)
  | real (loc : Nat)
  | str (s : String) (loc : Nat)
  | char (c : Char) (loc : Nat)
  | record (rows : CERows) (loc : Nat)
  | sequence (exps : CExps) (loc : Nat)
  | letE (dec : CDec) (exps : CExps) (loc : Nat)
/-- Expression vectors. -/
inductive CExps where
  | nil
  | cons (hd : CExp) (tl : CExps)
/-- Record expression rows: a located label and the row expression. -/
inductive CERows where
  | nil
  | cons (lab : CLabel) (labLoc : Nat) (exp : CExp) (rest : CERows)
/-- The older checker's declaration AST, restricted to the sequence form
(whose `ck` arm threads the context left to right). -/
inductive CDec where
  | seqDec (decs : CDecs) (loc : Nat)
/-- Declaration vectors. -/
inductive CDecs where
  | nil
  | cons (hd : CDec) (tl : CDecs)
end

/-- The location of an expression node. -/
def CExp.loc : CExp → Nat
  | .decInt _ l => l
  | .hexInt _ l => l
  | .decWord _ l => l
  | .hexWord _ l => l
  | .real l => l
  | .str _ l => l
  | .char _ l => l
  | .record _ l => l
  | .sequence _ l => l
  | .letE _ _ l => l

/-- The label list of record expression rows, in syntactic order. -/
def CERows.labels : CERows → List CLabel
  | .nil => []
  | .cons lab _ _ rest => lab :: CERows.labels rest

mutual
/-- `ck_exp` of `crates/core/src/statics/ck/dec.rs`, over the embedded
fragment.  The outcome is `none` when the Rust code panics (the
`ret.unwrap()` of an empty `Sequence` and the `last.unwrap()` of an empty
`let` body), and otherwise the (possibly erroneous) result together with
the threaded state. -/
def ckExp (cx : CCx) (st : CoreState) :
    CExp → Option (CoreState × Except (Located StaticsError) CoreTy)
  | .decInt _ _ => .some (st, .ok .INT)
  | .hexInt _ _ => .some (st, .ok .INT)
  | .decWord _ _ => .some (st, .ok .WORD)
  | .hexWord _ _ => .some (st, .ok .WORD)
  | .real _ => .some (st, .ok .REAL)
  | .str _ _ => .some (st, .ok .STRING)
  | .char _ _ => .some (st, .ok .CHAR)
  | .record rows _ =>
    match ckRecordRows cx st rows [] with
    | .none => .none
    | .some (st', .error e) => .some (st', .error e)
    | .some (st', .ok tyRows) => .some (st', .ok (.record tyRows))
  | .sequence exps _ =>
    match ckExpList cx st exps with
    | .none => .none
    | .some (st', .error e) => .some (st', .error e)
    | .some (_, .ok .none) => .none
    | .some (st', .ok (.some ty)) => .some (st', .ok ty)
  | .letE dec exps _ =>
    match ckDec cx st dec with
    | .none => .none
    | .some (st', .error e) => .some (st', .error e)
    | .some (st', .ok env) =>
      let names := cx.tyNames
      let cx' := cx.oPlus env
      match ckExpListLast cx' st' exps with
      | .none => .none
      | .some (st'', .error e) => .some (st'', .error e)
      | .some (_, .ok .none) => .none
      | .some (st'', .ok (.some (l, ty))) =>
        let ty := coreApply st''.subst ty
        if !(tyNamesSubset ty names) then
          .some (st'', .error ⟨l, .tyNameEscape⟩)
        else .some (st'', .ok ty)
/-- The `Sequence` loop of `ck_exp`: check each expression in order,
remembering the last result (`ret`). -/
def ckExpList (cx : CCx) (st : CoreState) :
    CExps → Option (CoreState × Except (Located StaticsError) (Option CoreTy))
  | .nil => .some (st, .ok .none)
  | .cons e tl =>
    match ckExp cx st e with
    | .none => .none
    | .some (st', .error er) => .some (st', .error er)
    | .some (st', .ok t) =>
      match ckExpList cx st' tl with
      | .none => .none
      | .some (st'', .error er) => .some (st'', .error er)
      | .some (st'', .ok .none) => .some (st'', .ok (.some t))
      | .some (st'', .ok (.some t')) => .some (st'', .ok (.some t'))
/-- The `Let` body loop of `ck_exp`: like `ckExpList` but remembering the
location of the last expression as well (`last`). -/
def ckExpListLast (cx : CCx) (st : CoreState) :
    CExps →
    Option (CoreState × Except (Located StaticsError) (Option (Nat × CoreTy)))
  | .nil => .some (st, .ok .none)
  | .cons e tl =>
    match ckExp cx st e with
    | .none => .none
    | .some (st', .error er) => .some (st', .error er)
    | .some (st', .ok t) =>
      match ckExpListLast cx st' tl with
      | .none => .none
      | .some (st'', .error er) => .some (st'', .error er)
      | .some (st'', .ok .none) => .some (st'', .ok (.some (e.loc, t)))
      | .some (st'', .ok (.some p)) => .some (st'', .ok (.some p))
/-- The `Exp::Record` loop of `ck_exp`: check each row expression, insert
its label into the seen set, and fail with `DuplicateLabel` at the first
label already present. -/
def ckRecordRows (cx : CCx) (st : CoreState) :
    CERows → List CLabel →
    Option (CoreState × Except (Located StaticsError) CRows)
  | .nil, _ => .some (st, .ok .nil)
  | .cons lab labLoc e rest, keys =>
    match ckExp cx st e with
    | .none => .none
    | .some (st', .error er) => .some (st', .error er)
    | .some (st', .ok ty) =>
      if keys.contains lab then
        .some (st', .error ⟨labLoc, .duplicateLabel lab⟩)
      else
        match ckRecordRows cx st' rest (keys ++ [lab]) with
        | .none => .none
        | .some (st'', .error er) => .some (st'', .error er)
        | .some (st'', .ok tyRows) => .some (st'', .ok (.cons lab ty tyRows))
/-- The `Dec::Seq` arm of `ck`: thread the context and accumulate the
environment delta left to right. -/
def ckDec (cx : CCx) (st : CoreState) :
    CDec → Option (CoreState × Except (Located StaticsError) CEnv)
  | .seqDec decs _ => ckDecSeq cx st decs CEnv.default
/-- The loop of the `Dec::Seq` arm. -/
def ckDecSeq (cx : CCx) (st : CoreState) :
    CDecs → CEnv → Option (CoreState × Except (Located StaticsError) CEnv)
  | .nil, ret => .some (st, .ok ret)
  | .cons d tl, ret =>
    let cx' := cx.oPlus ret
    match ckDec cx' st d with
    | .none => .none
    | .some (st', .error er) => .some (st', .error er)
    | .some (st', .ok env) => ckDecSeq cx' st' tl (ret.extend env)
end

/-- Modelled from the spec (§4.5): resolving a sharing constraint between
two type paths of a signature.  Both paths must be defined; "a sharing
constraint directly between two type abbreviations ... is always rejected,
since abbreviations have no independent identity to share"; two generative
entries are accepted (their identification is performed elsewhere). -/
def elabSharing (tyEnv : List (StrRef × CTyInfo)) (p1 p2 : StrRef) :
    Except StaticsError Unit :=
  match tyEnv.find? (fun e => e.1 == p1), tyEnv.find? (fun e => e.1 == p2) with
  | .some (_, .alias _), .some (_, .alias _) =>
    .error .cannotShareTypeAbbreviations
  | .some _, .some _ => .ok ()
  | .none, _ => .error (.undefinedType p1)
  | _, .none => .error (.undefinedType p2)

/-- A signature specification fragment: type abbreviations and sharing
constraints, the two forms exercised by the repository's
`sharing_via_abbreviation` tests. -/
inductive SigSpecF where
  | tyAbbrev (name : StrRef) (ty : CoreTy)
  | sharingTy (p1 p2 : StrRef)

/-- Modelled from the spec (§4.5): elaborating a specification sequence
into a type environment, duplicate-checking abbreviation names and
resolving sharing constraints against the entries elaborated so far. -/
def elabSpecList : List SigSpecF → List (StrRef × CTyInfo) →
    Except StaticsError (List (StrRef × CTyInfo))
  | [], env => .ok env
  | .tyAbbrev n ty :: rest, env =>
    if env.any (fun e => e.1 == n) then .error (.redefined n)
    else elabSpecList rest (env ++ [(n, .alias (CoreTyScheme.mono ty))])
  | .sharingTy p1 p2 :: rest, env =>
    match elabSharing env p1 p2 with
    | .error e => .error e
    | .ok _ => elabSpecList rest env

end Core

namespace Tests

/-- The structured form of the expected-error annotations in the test
corpus (`crates/tests/src/check.rs` renders them as strings). -/
inductive Diag where
  | mismatch (expected found : String)
  | cannotRebind (name : String)
  | missingArgForConPat
deriving DecidableEq, Repr

/-- Whether a diagnostic is a type mismatch. -/
def Diag.isMismatch : Diag → Bool
  | .mismatch _ _ => true
  | _ => false

/-- Whether a diagnostic is a forbidden-rebinding report. -/
def Diag.isCannotRebind : Diag → Bool
  | .cannotRebind _ => true
  | _ => false

/-- Transcribed from `crates/tests/src/deviations/smlnj.rs`, test
`rebind_true`: checking `fun true () = ()` is expected to report the
diagnostic `expected bool, found unit -> unit` covering the whole clause. -/
def rebindTrueExpected : Diag := .mismatch "bool" "unit -> unit"

/-- Transcribed from test `rebind_false`: `fun false () = ()` is expected
to report `expected bool, found unit -> unit`. -/
def rebindFalseExpected : Diag := .mismatch "bool" "unit -> unit"

/-- Transcribed from test `rebind_eq`: `val op = = 13` is expected to
report `cannot re-bind name: =`. -/
def rebindEqExpected : Diag := .cannotRebind "="

/-- Transcribed from test `rebind_cons`: `fun op :: () = ()` is expected to
report `missing argument for constructor pattern`. -/
def rebindConsExpected : Diag := .missingArgForConPat

end Tests

deriving instance DecidableEq for Statics.Ty
deriving instance DecidableEq for Statics.Pat
deriving instance DecidableEq for Core.CoreTy
deriving instance DecidableEq for Core.CExp

namespace Statics

/-- The unit type: the empty record. -/
def Ty.unit : Ty := .record .nil

/-- Whether an error is an unreachable-pattern report. -/
def ErrorKind.isUnreachable : ErrorKind → Bool
  | .unreachablePattern => true
  | _ => false

/-- Whether an error is a non-exhaustiveness report (for a binding or a
case obligation). -/
def ErrorKind.isNonExhaustive : ErrorKind → Bool
  | .nonExhaustiveBinding _ => true
  | .nonExhaustiveCase _ => true
  | _ => false

/-- The boolean `true` pattern at a node. -/
def truePat (idx : Nat) : Pat := Pat.zero (.variant .BOOL "true") idx

/-- The boolean `false` pattern at a node. -/
def falsePat (idx : Nat) : Pat := Pat.zero (.variant .BOOL "false") idx

/-- Decidable form of the spec's range condition on a substitution: every
resolved type in its range is itself fully resolved ("a mapping from meta
variables to resolved types"). -/
def Subst.resolvedRange (s : Subst) : Bool :=
  s.all fun e =>
    match e.2 with
    | .some t => resolvedTy s t
    | .none => true

end Statics

namespace Core

/-- Whether a type-environment entry is an abbreviation. -/
def CTyInfo.isAlias : CTyInfo → Bool
  | .alias _ => true
  | .datatype _ => false

/-- The last expression of an expression vector. -/
def CExps.last : CExps → Option CExp
  | .nil => .none
  | .cons e .nil => .some e
  | .cons _ (.cons e tl) => CExps.last (.cons e tl)

/-- The row expressions of record expression rows, in syntactic order. -/
def CERows.exps : CERows → List CExp
  | .nil => []
  | .cons _ _ e rest => e :: CERows.exps rest

end Core

open Statics Core Tests

theorem insertAll_store (s : Syms) (infos : List TyInfo) :
    (s.insertAll infos).2.store = s.store ++ infos := by
  induction infos generalizing s with
  | nil => simp [Syms.insertAll]
  | cons info rest ih =>
    simp only [Syms.insertAll, Syms.insert]
    rw [ih]
    simp

theorem insertAll_minted (s : Syms) (infos : List TyInfo) :
    ((s.insertAll infos).1.Pairwise (fun a b => a.idx < b.idx)) ∧
    (∀ a ∈ (s.insertAll infos).1, s.store.length ≤ a.idx) := by
  induction infos generalizing s with
  | nil => simp [Syms.insertAll]
  | cons info rest ih =>
    simp only [Syms.insertAll, Syms.insert]
    have h := ih ⟨s.store ++ [info]⟩
    simp only [List.length_append, List.length_singleton] at h
    constructor
    · refine List.pairwise_cons.mpr ⟨?_, h.1⟩
      intro b hb
      have := h.2 b hb
      simp only [Sym.mk.injEq]
      omega
    · intro a ha
      rcases List.mem_cons.mp ha with h' | h'
      · subst h'
        simp
      · have := h.2 a h'
        omega

/-- C1.  Generativity of type names: `Syms::insert` appends to the store and
returns the `Sym` of the new entry, so across any sequence of insertions
(in particular, two syntactically identical datatype declarations) the
store is append-only, every minted symbol is distinct from every symbol the
table had returned before, the minted symbols are pairwise distinct, and the
unifier can never identify the constructor types of two distinct minted
symbols. -/
theorem syms_insert_generative (s : Syms) (infos : List TyInfo) :
    (s.insertAll infos).2.store = s.store ++ infos ∧
    (∀ a ∈ (s.insertAll infos).1, s.store.length ≤ a.idx) ∧
    (s.insertAll infos).1.Nodup ∧
    (∀ a ∈ (s.insertAll infos).1, ∀ b ∈ (s.insertAll infos).1, a ≠ b →
      ¬ Unifies (.con .nil a) (.con .nil b)) := by
  obtain ⟨hpw, hge⟩ := insertAll_minted s infos
  refine ⟨insertAll_store s infos, hge, ?_, ?_⟩
  · have h2 : (s.insertAll infos).1.Pairwise (fun a b => a ≠ b) :=
      List.Pairwise.imp (fun h heq => absurd h (by simp [heq])) hpw
    exact h2
  · intro a _ b _ hne hu
    cases hu with
    | con h => exact hne rfl

theorem syms_insert_generative_witness :
    ((⟨10⟩ : Statics.Sym) ≠ ⟨11⟩) ∧
    ¬ Unifies (.con .nil ⟨10⟩) (.con .nil ⟨11⟩) := by
  have h := syms_insert_generative Syms.default
    [⟨"t", TyScheme.mono .none, []⟩, ⟨"t", TyScheme.mono .none, []⟩]
  refine ⟨by decide, h.2.2.2 ⟨10⟩ ?_ ⟨11⟩ ?_ (by decide)⟩
  · show Statics.Sym.mk 10 ∈ (Syms.insertAll _ _).1
    decide
  · show Statics.Sym.mk 11 ∈ (Syms.insertAll _ _).1
    decide

/-- C2.  The `hir::Ty::Var` arm of `get` in `crates/statics/src/ty.rs` is
`todo!()`: checking a type annotation that is a type variable always
panics instead of recording an error locally, contradicting the
failure-locality contract. -/
theorem ty_var_annotation_panics (cx : Cx) (errs : List ErrorKind) (v : String) :
    tyGet cx errs (.var v) = Option.none := rfl

/-- C3.  Boolean exhaustiveness scenarios: resolving a deferred case
obligation over `bool` whose only arm is the literal pattern `true`
reports exactly one missing witness (`false`) and no unreachable arm, and
one whose arms are `true`, `false`, `true` reports exactly the third arm
as unreachable and no missing witness. -/
theorem bool_case_exhaustiveness (i1 i2 i3 m1 m2 : Nat) :
    St.finish specCheck
      ⟨[], [], 0, 0, [], [⟨.case [truePat i1], .con .nil .BOOL, m1⟩], [],
        Syms.default⟩ =
      (Syms.default, [⟨m1, .nonExhaustiveCase [falsePat 0]⟩], []) ∧
    St.finish specCheck
      ⟨[], [], 0, 0, [],
        [⟨.case [truePat i1, falsePat i2, truePat i3], .con .nil .BOOL, m2⟩],
        [], Syms.default⟩ =
      (Syms.default, [⟨i3, .unreachablePattern⟩], []) := by
  constructor <;> rfl

theorem getMatch_errors_mem (cf : CheckFn) (errs : List Error) (lang : Lang)
    (pats : List Pat) (ty : Ty) :
    ∀ e ∈ (getMatch cf errs lang pats ty).1,
      e ∈ errs ∨ e.kind = .unreachablePattern := by
  intro e he
  cases h : cf lang pats ty with
  | error u =>
    simp only [getMatch, h] at he
    exact .inl he
  | ok ck =>
    simp only [getMatch, h, List.mem_append] at he
    rcases he with he | he
    · exact .inl he
    · obtain ⟨i, _, rfl⟩ := List.mem_map.mp he
      exact .inr rfl

/-- C5.  Handle obligations never require exhaustiveness: the errors a
deferred handle obligation contributes are only unreachable-arm reports,
never a non-exhaustive error; whereas a binding or case obligation with a
non-empty missing-pattern set always contributes its non-exhaustive
error. -/
theorem handle_never_non_exhaustive (cf : CheckFn) (lang : Lang)
    (subst : Subst) (errs : List Error) (pats : List Pat) (pat : Pat)
    (want : Ty) (idx : Nat) :
    (∀ e ∈ matchStep cf lang subst errs ⟨.handle pats, want, idx⟩,
      e ∈ errs ∨ e.kind = .unreachablePattern) ∧
    ((getMatch cf errs lang [pat] (applyTy subst want)).2 ≠ [] →
      (⟨idx, .nonExhaustiveBinding
          (getMatch cf errs lang [pat] (applyTy subst want)).2⟩ : Error)
        ∈ matchStep cf lang subst errs ⟨.bind pat, want, idx⟩) ∧
    ((getMatch cf errs lang pats (applyTy subst want)).2 ≠ [] →
      (⟨idx, .nonExhaustiveCase
          (getMatch cf errs lang pats (applyTy subst want)).2⟩ : Error)
        ∈ matchStep cf lang subst errs ⟨.case pats, want, idx⟩) := by
  refine ⟨?_, ?_, ?_⟩
  · intro e he
    exact getMatch_errors_mem cf errs lang pats (applyTy subst want) e he
  · intro hne
    rcases hg : getMatch cf errs lang [pat] (applyTy subst want) with ⟨ge, gm⟩
    rw [hg] at hne
    simp only at hne
    simp only [matchStep, hg, List.isEmpty_iff, if_neg hne]
    exact List.mem_append_right _ (by simp)
  · intro hne
    rcases hg : getMatch cf errs lang pats (applyTy subst want) with ⟨ge, gm⟩
    rw [hg] at hne
    simp only at hne
    simp only [matchStep, hg, List.isEmpty_iff, if_neg hne]
    exact List.mem_append_right _ (by simp)

theorem handle_never_non_exhaustive_witness :
    (∀ e ∈ matchStep specCheck ⟨Syms.default⟩ [] []
        ⟨.handle [truePat 1], .con .nil .BOOL, 9⟩,
      e ∈ ([] : List Error) ∨ e.kind = .unreachablePattern) ∧
    (⟨9, .nonExhaustiveCase [falsePat 0]⟩ : Error) ∈
      matchStep specCheck ⟨Syms.default⟩ [] []
        ⟨.case [truePat 1], .con .nil .BOOL, 9⟩ := by
  have h := handle_never_non_exhaustive specCheck ⟨Syms.default⟩ [] []
    [truePat 1] (truePat 1) (.con .nil .BOOL) 9
  have hm : (getMatch specCheck ([] : List Error) ⟨Syms.default⟩ [truePat 1]
      (applyTy ([] : Subst) (.con .nil .BOOL))).2 = [falsePat 0] := rfl
  have h2 := h.2.2 (by rw [hm]; exact List.cons_ne_nil _ _)
  rw [hm] at h2
  exact ⟨h.1, h2⟩

theorem getMatch_append (cf : CheckFn) (errs : List Error) (lang : Lang)
    (pats : List Pat) (ty : Ty) :
    getMatch cf errs lang pats ty =
      (errs ++ (getMatch cf [] lang pats ty).1, (getMatch cf [] lang pats ty).2) := by
  cases h : cf lang pats ty <;> simp [getMatch, h]

theorem matchStep_append (cf : CheckFn) (lang : Lang) (subst : Subst)
    (errs : List Error) (m : Match) :
    matchStep cf lang subst errs m = errs ++ matchStep cf lang subst [] m := by
  obtain ⟨kind, want, idx⟩ := m
  cases kind with
  | bind pat =>
    rcases hg : getMatch cf [] lang [pat] (applyTy subst want) with ⟨ge, gm⟩
    have ha := getMatch_append cf errs lang [pat] (applyTy subst want)
    rw [hg] at ha
    simp only [matchStep, ha, hg]
    rcases gm with _ | ⟨p, gm⟩ <;> simp
  | case pats =>
    rcases hg : getMatch cf [] lang pats (applyTy subst want) with ⟨ge, gm⟩
    have ha := getMatch_append cf errs lang pats (applyTy subst want)
    rw [hg] at ha
    simp only [matchStep, ha, hg]
    rcases gm with _ | ⟨p, gm⟩ <;> simp
  | handle pats =>
    rcases hg : getMatch cf [] lang pats (applyTy subst want) with ⟨ge, gm⟩
    have ha := getMatch_append cf errs lang pats (applyTy subst want)
    rw [hg] at ha
    simp only [matchStep, ha, hg]

theorem foldl_matchStep (cf : CheckFn) (lang : Lang) (subst : Subst)
    (ms : List Match) :
    ∀ errs, ms.foldl (matchStep cf lang subst) errs =
      errs ++ ms.flatMap (fun m => matchStep cf lang subst [] m) := by
  induction ms with
  | nil => simp
  | cons m tl ih =>
    intro errs
    simp only [List.foldl_cons, List.flatMap_cons]
    rw [ih, matchStep_append, List.append_assoc]

theorem matchStep_unreachable_sorted (cf : CheckFn) (lang : Lang)
    (subst : Subst) (m : Match) :
    (((matchStep cf lang subst [] m).filter
      (fun e => e.kind.isUnreachable)).map (fun e => e.idx)).Sorted (· ≤ ·) := by
  have hsingle : ∀ pats ty,
      ((((getMatch cf [] lang pats ty).1).filter
        (fun e => e.kind.isUnreachable)).map (fun e => e.idx)).Sorted (· ≤ ·) ∧
      (((getMatch cf [] lang pats ty).1).filter
        (fun e => e.kind.isUnreachable)).map (fun e => e.idx) =
        ((getMatch cf [] lang pats ty).1).map (fun e => e.idx) := by
    intro pats ty
    cases h : cf lang pats ty with
    | error u => simp [getMatch, h, List.Sorted]
    | ok ck =>
      simp only [getMatch, h, List.nil_append]
      rw [List.filter_map, List.map_map]
      have heq : List.filter ((fun e => ErrorKind.isUnreachable e.kind) ∘
          (fun idx => (⟨idx, .unreachablePattern⟩ : Error)))
          (List.insertionSort (fun a b => a ≤ b) ck.unreachable.reduceOption) =
          List.insertionSort (fun a b => a ≤ b) ck.unreachable.reduceOption :=
        List.filter_eq_self.mpr (fun a _ => rfl)
      rw [heq]
      have hf : ((fun e => Error.idx e) ∘
          (fun idx => (⟨idx, .unreachablePattern⟩ : Error))) = fun x : Nat => x :=
        funext (fun x => rfl)
      constructor
      · have hs := List.sorted_insertionSort (fun a b : Nat => a ≤ b)
          (ck.unreachable.reduceOption)
        rw [hf]
        simpa using hs
      · rw [hf, List.map_map, hf]
  obtain ⟨kind, want, idx⟩ := m
  cases kind with
  | bind pat =>
    rcases hg : getMatch cf [] lang [pat] (applyTy subst want) with ⟨ge, gm⟩
    have h := hsingle [pat] (applyTy subst want)
    rw [hg] at h
    simp only at h
    simp only [matchStep, hg]
    rcases gm with _ | ⟨p, gm⟩
    · simpa using h.1
    · rw [if_neg (by simp)]
      have hzero : ([⟨idx, .nonExhaustiveBinding (p :: gm)⟩] : List Error).filter
          (fun e => e.kind.isUnreachable) = [] := rfl
      rw [List.filter_append, List.map_append, hzero]
      simpa using h.1
  | case pats =>
    rcases hg : getMatch cf [] lang pats (applyTy subst want) with ⟨ge, gm⟩
    have h := hsingle pats (applyTy subst want)
    rw [hg] at h
    simp only at h
    simp only [matchStep, hg]
    rcases gm with _ | ⟨p, gm⟩
    · simpa using h.1
    · rw [if_neg (by simp)]
      have hzero : ([⟨idx, .nonExhaustiveCase (p :: gm)⟩] : List Error).filter
          (fun e => e.kind.isUnreachable) = [] := rfl
      rw [List.filter_append, List.map_append, hzero]
      simpa using h.1
  | handle pats =>
    rcases hg : getMatch cf [] lang pats (applyTy subst want) with ⟨ge, gm⟩
    have h := hsingle pats (applyTy subst want)
    rw [hg] at h
    simp only at h
    simp only [matchStep, hg]
    exact h.1

/-- C6.  Report ordering: `finish` resolves deferred obligations in their
insertion order — the final error list is the prior errors, then the hole
reports, then each obligation's errors as a contiguous block in queue
order — and within one obligation the unreachable-arm reports appear in
ascending node order. -/
theorem finish_report_ordering (cf : CheckFn) (st : St) :
    (St.finish cf st).2.1 =
      (st.errors ++ st.holes.map
        (fun h => ⟨h.2, .expHole (applyTy st.subst (.metaVar h.1))⟩))
        ++ st.matches'.flatMap (fun m => matchStep cf ⟨st.syms⟩ st.subst [] m) ∧
    ∀ m, (((matchStep cf ⟨st.syms⟩ st.subst [] m).filter
      (fun e => e.kind.isUnreachable)).map (fun e => e.idx)).Sorted (· ≤ ·) := by
  constructor
  · simp only [St.finish]
    rw [foldl_matchStep]
  · intro m
    exact matchStep_unreachable_sorted cf ⟨st.syms⟩ st.subst m

theorem lab_ltB_irrefl (l : Lab) : Lab.ltB l l = false := by
  cases l <;> simp [Lab.ltB]

theorem lab_ltB_total (a b : Lab) (hne : a ≠ b) :
    Lab.ltB a b = true ∨ Lab.ltB b a = true := by
  cases a with
  | name x =>
    cases b with
    | name y =>
      simp only [Lab.ltB, decide_eq_true_eq]
      exact lt_or_gt_of_ne (fun h => hne (by rw [h]))
    | num y => simp [Lab.ltB]
  | num x =>
    cases b with
    | name y => simp [Lab.ltB]
    | num y =>
      simp only [Lab.ltB, decide_eq_true_eq]
      exact lt_or_gt_of_ne (fun h => hne (by rw [h]))

theorem lab_ltB_asymm (a b : Lab) (h : Lab.ltB a b = true) :
    Lab.ltB b a = false := by
  cases a <;> cases b <;>
    simp only [Lab.ltB, decide_eq_true_eq, decide_eq_false_iff_not] at h ⊢ <;>
    first
    | exact lt_asymm h
    | trivial

theorem lab_ltB_trans (a b c : Lab) (h1 : Lab.ltB a b = true)
    (h2 : Lab.ltB b c = true) : Lab.ltB a c = true := by
  cases a <;> cases b <;> cases c <;>
    simp only [Lab.ltB, decide_eq_true_eq] at h1 h2 ⊢ <;>
    first
    | exact lt_trans h1 h2
    | trivial

theorem insertRow_perm (a : Lab) (ta : Ty) (m : List (Lab × Ty))
    (hnot : ∀ e ∈ m, e.1 ≠ a) : (insertRow a ta m).Perm ((a, ta) :: m) := by
  induction m with
  | nil => simp [insertRow]
  | cons e rest ih =>
    obtain ⟨l, t⟩ := e
    have hla : ¬(a = l) := fun h => hnot (l, t) (by simp) (by simp [h])
    simp only [insertRow, if_neg hla]
    by_cases hlt : Lab.ltB a l = true
    · rw [if_pos hlt]
    · rw [if_neg hlt]
      have hp := ih (fun e he => hnot e (by simp [he]))
      exact (List.Perm.cons _ hp).trans (List.Perm.swap _ _ _)

theorem insertRow_sorted (a : Lab) (ta : Ty) (m : List (Lab × Ty))
    (hs : m.Pairwise (fun e f => Lab.ltB e.1 f.1 = true))
    (hnot : ∀ e ∈ m, e.1 ≠ a) :
    (insertRow a ta m).Pairwise (fun e f => Lab.ltB e.1 f.1 = true) := by
  induction m with
  | nil => simp [insertRow]
  | cons e rest ih =>
    obtain ⟨l, t⟩ := e
    have hla : ¬(a = l) := fun h => hnot (l, t) (by simp) (by simp [h])
    obtain ⟨hhead, hrest⟩ := List.pairwise_cons.mp hs
    simp only [insertRow, if_neg hla]
    by_cases hlt : Lab.ltB a l = true
    · rw [if_pos hlt]
      refine List.pairwise_cons.mpr ⟨?_, hs⟩
      intro f hf
      rcases List.mem_cons.mp hf with h' | h'
      · rw [h']
        exact hlt
      · exact lab_ltB_trans _ _ _ hlt (hhead f h')
    · rw [if_neg hlt]
      have hal : Lab.ltB l a = true := by
        rcases lab_ltB_total a l (fun h => hla h) with h' | h'
        · exact absurd h' hlt
        · exact h'
      refine List.pairwise_cons.mpr ⟨?_, ih hrest (fun e he => hnot e (by simp [he]))⟩
      intro f hf
      have := (insertRow_perm a ta rest
        (fun e he => hnot e (by simp [he]))).mem_iff.mp hf
      rcases List.mem_cons.mp this with h' | h'
      · rw [h']
        exact hal
      · exact hhead f h'

theorem foldl_insertRow_perm_sorted (rows : List (Lab × Ty)) :
    ∀ acc : List (Lab × Ty),
    acc.Pairwise (fun e f => Lab.ltB e.1 f.1 = true) →
    ((acc ++ rows).map Prod.fst).Nodup →
    (rows.foldl (fun acc e => insertRow e.1 e.2 acc) acc).Perm (acc ++ rows) ∧
    (rows.foldl (fun acc e => insertRow e.1 e.2 acc) acc).Pairwise
      (fun e f => Lab.ltB e.1 f.1 = true) := by
  induction rows with
  | nil =>
    intro acc hs _
    simp [hs]
  | cons r rest ih =>
    intro acc hs hnd
    obtain ⟨l, t⟩ := r
    have hlnot : ∀ e ∈ acc, e.1 ≠ l := by
      intro e he heq
      have h1 : l ∈ (acc ++ (l, t) :: rest).map Prod.fst :=
        List.mem_map.mpr ⟨(l, t), by simp, rfl⟩
      have h2 : l ∈ acc.map Prod.fst := List.mem_map.mpr ⟨e, he, heq⟩
      have := (List.nodup_append.mp (by simpa using hnd)).2.2
      exact this h2 (by simp)
    have hip := insertRow_perm l t acc hlnot
    have his := insertRow_sorted l t acc hs hlnot
    have hnd' : (((insertRow l t acc) ++ rest).map Prod.fst).Nodup := by
      have hperm : ((insertRow l t acc) ++ rest).Perm (acc ++ (l, t) :: rest) :=
        (hip.append_right rest).trans (List.perm_middle).symm
      exact ((hperm.map Prod.fst).nodup_iff).mpr hnd
    obtain ⟨hp, hsrt⟩ := ih (insertRow l t acc) his hnd'
    refine ⟨?_, hsrt⟩
    simp only [List.foldl_cons]
    exact hp.trans ((hip.append_right rest).trans (List.perm_middle).symm)

theorem mapOfRows_perm_eq (rows1 rows2 : List (Lab × Ty)) (errs : List ErrorKind)
    (hperm : rows1.Perm rows2) (hnd : (rows1.map Prod.fst).Nodup) :
    (buildRecord rows1 errs).1 = (buildRecord rows2 errs).1 := by
  have hnd2 : (rows2.map Prod.fst).Nodup := ((hperm.map Prod.fst).nodup_iff).mp hnd
  obtain ⟨hp1, hs1⟩ := foldl_insertRow_perm_sorted rows1 []
    (by simp) (by simpa using hnd)
  obtain ⟨hp2, hs2⟩ := foldl_insertRow_perm_sorted rows2 []
    (by simp) (by simpa using hnd2)
  simp only [List.nil_append] at hp1 hp2
  have hp : (mapOfRows rows1).Perm (mapOfRows rows2) :=
    (hp1.trans hperm).trans hp2.symm
  haveI : IsAntisymm (Lab × Ty) (fun e f => Lab.ltB e.1 f.1 = true) := by
    refine ⟨fun a b h1 h2 => ?_⟩
    have := lab_ltB_asymm _ _ h1
    rw [this] at h2
    exact absurd h2 (by simp)
  have heq : mapOfRows rows1 = mapOfRows rows2 :=
    List.eq_of_perm_of_sorted hp hs1 hs2
  simp only [buildRecord, heq]

theorem ckRecordRows_ok_nodup : ∀ (rows : CERows) (cx : CCx) (st : CoreState)
    (keys : List CLabel) (st' : CoreState) (tyRows : CRows),
    keys.Nodup →
    ckRecordRows cx st rows keys = .some (st', .ok tyRows) →
    (keys ++ rows.labels).Nodup
  | .nil, cx, st, keys, st', tyRows => by
    intro hk _
    simpa [CERows.labels] using hk
  | .cons lab labLoc e rest, cx, st, keys, st', tyRows => by
    intro hk h
    rcases he : ckExp cx st e with _ | ⟨st0, er | ty0⟩ <;>
      simp only [ckRecordRows, he] at h
    · exact absurd h (by simp)
    · exact absurd h (by simp)
    by_cases hc : keys.contains lab
    · rw [if_pos hc] at h
      exact absurd h (by simp)
    · rw [if_neg hc] at h
      rcases hr : ckRecordRows cx st0 rest (keys ++ [lab]) with _ | ⟨st1, er | tr⟩ <;>
        rw [hr] at h
      · simp at h
      · simp at h
      have hk' : (keys ++ [lab]).Nodup := by
        have hmem : lab ∉ keys := by simpa using hc
        exact List.Nodup.append hk (List.nodup_singleton lab) (by simpa using hmem)
      have := ckRecordRows_ok_nodup rest cx st0 (keys ++ [lab]) st1 tr hk' hr
      simpa [CERows.labels, List.append_assoc] using this

theorem ckRecordRows_dup_error : ∀ (rows : CERows) (cx : CCx)
    (st : CoreState) (keys : List CLabel),
    (∀ (st0 : CoreState) (e : CExp), e ∈ rows.exps →
      ∃ st1 t, ckExp cx st0 e = .some (st1, .ok t)) →
    keys.Nodup →
    ¬ (keys ++ rows.labels).Nodup →
    ∃ st' lab labLoc, lab ∈ rows.labels ∧
      ckRecordRows cx st rows keys =
        .some (st', .error ⟨labLoc, .duplicateLabel lab⟩)
  | .nil => by
    intro cx st keys hexp hk hnd
    exact absurd (by simpa [CERows.labels] using hk) hnd
  | .cons lab labLoc e rest => by
    intro cx st keys hexp hk hnd
    obtain ⟨st1, t, he⟩ := hexp st e (by simp [CERows.exps])
    by_cases hc : keys.contains lab
    · refine ⟨st1, lab, labLoc, by simp [CERows.labels], ?_⟩
      simp only [ckRecordRows, he, if_pos hc]
    · have hmem : lab ∉ keys := by simpa using hc
      have hk' : (keys ++ [lab]).Nodup :=
        List.Nodup.append hk (List.nodup_singleton lab) (by simpa using hmem)
      have hnd' : ¬ ((keys ++ [lab]) ++ rest.labels).Nodup := by
        intro hcontra
        exact hnd (by simpa [CERows.labels, List.append_assoc] using hcontra)
      obtain ⟨st', lab', labLoc', hmem', hrec⟩ :=
        ckRecordRows_dup_error rest cx st1 (keys ++ [lab])
          (fun st0 e' he' => hexp st0 e' (by simp [CERows.exps, he'])) hk' hnd'
      refine ⟨st', lab', labLoc', by simp [CERows.labels, hmem'], ?_⟩
      simp only [ckRecordRows, he, if_neg hc, hrec]

/-- C7.  Record row laws: two record row lists with the same label-to-field
mapping (permutations of one another, labels distinct) produce the same row
type, since `Ty::Record` is a `BTreeMap` keyed by label; and in the older
checker's `ck_exp`, a record expression carrying a duplicate label —
wherever in the record the duplicate occurs — is rejected with a
duplicate-label error (provided its row expressions themselves check, since
they are checked before the label test), so in particular a record checks
successfully only when its labels are pairwise distinct. -/
theorem record_row_laws :
    (∀ (rows1 rows2 : List (Lab × Ty)) (errs : List ErrorKind),
      rows1.Perm rows2 → (rows1.map Prod.fst).Nodup →
      (buildRecord rows1 errs).1 = (buildRecord rows2 errs).1) ∧
    (∀ (cx : CCx) (st : CoreState) (rows : CERows) (l : Nat),
      (∀ (st0 : CoreState) (e : CExp), e ∈ rows.exps →
        ∃ st1 t, ckExp cx st0 e = .some (st1, .ok t)) →
      ¬ rows.labels.Nodup →
      ∃ st' lab labLoc, lab ∈ rows.labels ∧
        ckExp cx st (.record rows l) =
          .some (st', .error ⟨labLoc, .duplicateLabel lab⟩)) ∧
    (∀ (cx : CCx) (st : CoreState) (rows : CERows) (l : Nat)
      (st' : CoreState) (ty : CoreTy),
      ckExp cx st (.record rows l) = .some (st', .ok ty) →
      rows.labels.Nodup) := by
  refine ⟨?_, ?_, ?_⟩
  · intro rows1 rows2 errs hperm hnd
    exact mapOfRows_perm_eq rows1 rows2 errs hperm hnd
  · intro cx st rows l hexp hnd
    obtain ⟨st', lab, labLoc, hmem, hrec⟩ :=
      ckRecordRows_dup_error rows cx st [] hexp (by simp) (by simpa using hnd)
    refine ⟨st', lab, labLoc, hmem, ?_⟩
    simp only [ckExp, hrec]
  · intro cx st rows l st' ty h
    have key : ∃ st1 tr, ckRecordRows cx st rows [] = .some (st1, .ok tr) := by
      rcases hr : ckRecordRows cx st rows [] with _ | ⟨st1, er | tr⟩ <;>
        simp only [ckExp, hr] at h
      · simp at h
      · simp at h
      · exact ⟨st1, tr, rfl⟩
    obtain ⟨st1, tr, hr⟩ := key
    have := ckRecordRows_ok_nodup rows cx st [] st1 tr (by simp) hr
    simpa using this

theorem record_row_laws_witness :
    (buildRecord [(Lab.num 1, Ty.unit), (Lab.num 2, Ty.none)] []).1 =
      (buildRecord [(Lab.num 2, Ty.none), (Lab.num 1, Ty.unit)] []).1 ∧
    (∃ st' lab labLoc,
      lab ∈ (CERows.cons (CLabel.num 1) 0 (.decInt 1 0)
        (.cons (.num 1) 2 (.decInt 2 3) .nil)).labels ∧
      ckExp ⟨[], CEnv.default⟩ ⟨[]⟩
        (.record (.cons (CLabel.num 1) 0 (.decInt 1 0)
          (.cons (.num 1) 2 (.decInt 2 3) .nil)) 7) =
        .some (st', .error ⟨labLoc, .duplicateLabel lab⟩)) ∧
    (CERows.cons (CLabel.num 1) 0 (.decInt 1 0) .nil).labels.Nodup := by
  refine ⟨record_row_laws.1 _ _ [] (List.Perm.swap _ _ _) (by decide), ?_, ?_⟩
  · refine record_row_laws.2.1 ⟨[], CEnv.default⟩ ⟨[]⟩ _ 7 ?_ (by decide)
    intro st0 e he
    simp only [CERows.exps, List.mem_cons, List.not_mem_nil, or_false] at he
    rcases he with rfl | rfl
    · exact ⟨st0, .INT, rfl⟩
    · exact ⟨st0, .INT, rfl⟩
  · exact record_row_laws.2.2 ⟨[], CEnv.default⟩ ⟨[]⟩ _ 5 ⟨[]⟩
      (.record (.cons (.num 1) .INT .nil)) rfl

theorem resolvedRange_solved (s : Subst) (hr : s.resolvedRange = true)
    (mv : MetaTyVar) (t : Ty) (h : s.solved mv = .some t) :
    resolvedTy s t = true := by
  unfold Subst.solved at h
  cases hf : List.find? (fun e => e.1 == mv) s with
  | none => rw [hf] at h; simp at h
  | some e =>
    rw [hf] at h
    obtain ⟨e1, e2⟩ := e
    cases e2 with
    | none => simp at h
    | some t' =>
      simp only [Option.some.injEq] at h
      subst h
      have hmem := List.mem_of_find?_eq_some hf
      have hall := hr
      unfold Subst.resolvedRange at hall
      have := (List.all_eq_true.mp hall) _ hmem
      simpa using this

mutual
theorem applyTy_of_resolved (s : Subst) :
    ∀ t : Ty, resolvedTy s t = true → applyTy s t = t
  | .none, _ => rfl
  | .boundVar _, _ => rfl
  | .metaVar mv, h => by
    have h' : s.solved mv = .none := by
      simpa [resolvedTy, Option.isNone_iff_eq_none] using h
    simp [applyTy, h']
  | .record rows, h => by
    have hrec := applyRows_of_resolved s rows (by simpa [resolvedTy] using h)
    simp [applyTy, hrec]
  | .con args sym, h => by
    have hrec := applyTys_of_resolved s args (by simpa [resolvedTy] using h)
    simp [applyTy, hrec]
  | .fn d c, h => by
    have h' : resolvedTy s d = true ∧ resolvedTy s c = true := by
      simpa [resolvedTy, Bool.and_eq_true] using h
    have hd := applyTy_of_resolved s d h'.1
    have hc := applyTy_of_resolved s c h'.2
    simp [applyTy, hd, hc]
theorem applyRows_of_resolved (s : Subst) :
    ∀ rows : Rows, resolvedRows s rows = true → applyRows s rows = rows
  | .nil, _ => rfl
  | .cons lab ty rest, h => by
    have h' : resolvedTy s ty = true ∧ resolvedRows s rest = true := by
      simpa [resolvedRows, Bool.and_eq_true] using h
    simp [applyRows, applyTy_of_resolved s ty h'.1,
      applyRows_of_resolved s rest h'.2]
theorem applyTys_of_resolved (s : Subst) :
    ∀ args : Tys, resolvedTys s args = true → applyTys s args = args
  | .nil, _ => rfl
  | .cons hd tl, h => by
    have h' : resolvedTy s hd = true ∧ resolvedTys s tl = true := by
      simpa [resolvedTys, Bool.and_eq_true] using h
    simp [applyTys, applyTy_of_resolved s hd h'.1,
      applyTys_of_resolved s tl h'.2]
end

mutual
theorem resolved_applyTy (s : Subst) (hr : s.resolvedRange = true) :
    ∀ t : Ty, resolvedTy s (applyTy s t) = true
  | .none => rfl
  | .boundVar _ => rfl
  | .metaVar mv => by
    cases hs : s.solved mv with
    | none => simp [applyTy, hs, resolvedTy]
    | some t' =>
      simp only [applyTy, hs]
      exact resolvedRange_solved s hr mv t' hs
  | .record rows => by
    simp [applyTy, resolvedTy, resolved_applyRows s hr rows]
  | .con args sym => by
    simp [applyTy, resolvedTy, resolved_applyTys s hr args]
  | .fn d c => by
    simp [applyTy, resolvedTy, resolved_applyTy s hr d, resolved_applyTy s hr c]
theorem resolved_applyRows (s : Subst) (hr : s.resolvedRange = true) :
    ∀ rows : Rows, resolvedRows s (applyRows s rows) = true
  | .nil => rfl
  | .cons lab ty rest => by
    simp [applyRows, resolvedRows, resolved_applyTy s hr ty,
      resolved_applyRows s hr rest]
theorem resolved_applyTys (s : Subst) (hr : s.resolvedRange = true) :
    ∀ args : Tys, resolvedTys s (applyTys s args) = true
  | .nil => rfl
  | .cons hd tl => by
    simp [applyTys, resolvedTys, resolved_applyTy s hr hd,
      resolved_applyTys s hr tl]
end

/-- C8.  Substitution idempotence: for a substitution whose range consists
of resolved types, a type in which every reachable meta variable is
unresolved is left unchanged by `apply`, and in particular applying the
substitution twice is the same as applying it once. -/
theorem subst_apply_idempotent (s : Subst) (hr : s.resolvedRange = true)
    (t : Ty) :
    (resolvedTy s t = true → applyTy s t = t) ∧
    applyTy s (applyTy s t) = applyTy s t := by
  refine ⟨fun h => applyTy_of_resolved s t h, ?_⟩
  exact applyTy_of_resolved s _ (resolved_applyTy s hr t)

theorem subst_apply_idempotent_witness :
    applyTy [(⟨0, false⟩, Option.some (Ty.con .nil .INT))]
      (applyTy [(⟨0, false⟩, Option.some (Ty.con .nil .INT))]
        (.metaVar ⟨0, false⟩)) =
    applyTy [(⟨0, false⟩, Option.some (Ty.con .nil .INT))]
      (.metaVar ⟨0, false⟩) :=
  (subst_apply_idempotent [(⟨0, false⟩, .some (.con .nil .INT))] (by rfl)
    (.metaVar ⟨0, false⟩)).2

/-- C9.  A sharing constraint directly between two type abbreviations is
always rejected: whenever both paths of the constraint resolve to `Alias`
entries, elaboration reports that abbreviations cannot be shared; in
particular the repository test signature
`sig type t = int type u = int sharing type t = u end` elaborates to that
error. -/
theorem sharing_between_abbreviations_rejected :
    (∀ (tyEnv : List (StrRef × CTyInfo)) (p1 p2 : StrRef)
      (e1 e2 : StrRef × CTyInfo),
      tyEnv.find? (fun e => e.1 == p1) = .some e1 → e1.2.isAlias = true →
      tyEnv.find? (fun e => e.1 == p2) = .some e2 → e2.2.isAlias = true →
      elabSharing tyEnv p1 p2 = .error .cannotShareTypeAbbreviations) ∧
    elabSpecList [.tyAbbrev "t" .INT, .tyAbbrev "u" .INT, .sharingTy "t" "u"]
      [] = .error .cannotShareTypeAbbreviations := by
  constructor
  · intro tyEnv p1 p2 e1 e2 h1 ha1 h2 ha2
    obtain ⟨n1, i1⟩ := e1
    obtain ⟨n2, i2⟩ := e2
    rcases i1 with s1 | s
    · rcases i2 with s2 | s
      · simp [elabSharing, h1, h2]
      · simp [CTyInfo.isAlias] at ha2
    · simp [CTyInfo.isAlias] at ha1
  · rfl

theorem sharing_between_abbreviations_rejected_witness :
    elabSharing [("t", .alias (CoreTyScheme.mono .INT)),
      ("u", .alias (CoreTyScheme.mono .INT))] "t" "u" =
      .error .cannotShareTypeAbbreviations :=
  sharing_between_abbreviations_rejected.1 _ "t" "u"
    ("t", .alias (CoreTyScheme.mono .INT))
    ("u", .alias (CoreTyScheme.mono .INT)) rfl rfl rfl rfl

theorem ckExpList_cons_ne_ok_none (cx : CCx) (st : CoreState) (e : CExp)
    (tl : CExps) (st' : CoreState) :
    ckExpList cx st (.cons e tl) ≠ .some (st', .ok .none) := by
  intro h
  rcases he : ckExp cx st e with _ | ⟨st1, er | t1⟩ <;>
    simp only [ckExpList, he] at h
  · simp at h
  · simp at h
  · rcases hr : ckExpList cx st1 tl with _ | ⟨st2, er | (_ | t2)⟩ <;>
      rw [hr] at h <;> simp at h

theorem ckExpListLast_cons_ne_ok_none (cx : CCx) (st : CoreState) (e : CExp)
    (tl : CExps) (st' : CoreState) :
    ckExpListLast cx st (.cons e tl) ≠ .some (st', .ok .none) := by
  intro h
  rcases he : ckExp cx st e with _ | ⟨st1, er | t1⟩ <;>
    simp only [ckExpListLast, he] at h
  · simp at h
  · simp at h
  · rcases hr : ckExpListLast cx st1 tl with _ | ⟨st2, er | (_ | p2)⟩ <;>
      rw [hr] at h <;> simp at h

theorem ckExpList_last : ∀ (exps : CExps) (cx : CCx) (st st' : CoreState)
    (t : CoreTy), ckExpList cx st exps = .some (st', .ok (.some t)) →
    ∃ e st0, exps.last = .some e ∧ ckExp cx st0 e = .some (st', .ok t)
  | .nil => by
    intro cx st st' t h
    simp [ckExpList] at h
  | .cons e tl => by
    intro cx st st' t h
    rcases he : ckExp cx st e with _ | ⟨st1, er | t1⟩
    · simp [ckExpList, he] at h
    · simp [ckExpList, he] at h
    · rcases hr : ckExpList cx st1 tl with _ | ⟨st2, er | (_ | t2)⟩
      · simp [ckExpList, he, hr] at h
      · simp [ckExpList, he, hr] at h
      · simp only [ckExpList, he, hr] at h
        obtain ⟨h1, h2⟩ : st2 = st' ∧ t1 = t := by simpa using h
        rcases tl with _ | ⟨e2, tl2⟩
        · have heq : ckExpList cx st1 CExps.nil = .some (st1, .ok .none) := rfl
          rw [heq] at hr
          have h3 : st1 = st2 := by simpa using hr
          exact ⟨e, st, rfl, by rw [he, h3, h1, h2]⟩
        · exact absurd hr (ckExpList_cons_ne_ok_none cx st1 e2 tl2 st2)
      · simp only [ckExpList, he, hr] at h
        obtain ⟨h1, h2⟩ : st2 = st' ∧ t2 = t := by simpa using h
        obtain ⟨e', st0, hlast, hck⟩ := ckExpList_last tl cx st1 st2 t2 hr
        rcases tl with _ | ⟨e2, tl2⟩
        · simp [CExps.last] at hlast
        · refine ⟨e', st0, ?_, ?_⟩
          · simpa [CExps.last] using hlast
          · rw [hck, h1, h2]

theorem ckExpListLast_last : ∀ (exps : CExps) (cx : CCx) (st st' : CoreState)
    (lc : Nat) (t : CoreTy),
    ckExpListLast cx st exps = .some (st', .ok (.some (lc, t))) →
    ∃ e st0, exps.last = .some e ∧ e.loc = lc ∧
      ckExp cx st0 e = .some (st', .ok t)
  | .nil => by
    intro cx st st' lc t h
    simp [ckExpListLast] at h
  | .cons e tl => by
    intro cx st st' lc t h
    rcases he : ckExp cx st e with _ | ⟨st1, er | t1⟩
    · simp [ckExpListLast, he] at h
    · simp [ckExpListLast, he] at h
    · rcases hr : ckExpListLast cx st1 tl with _ | ⟨st2, er | (_ | p2)⟩
      · simp [ckExpListLast, he, hr] at h
      · simp [ckExpListLast, he, hr] at h
      · simp only [ckExpListLast, he, hr] at h
        obtain ⟨h1, h2, h3⟩ : st2 = st' ∧ e.loc = lc ∧ t1 = t := by
          simpa using h
        rcases tl with _ | ⟨e2, tl2⟩
        · have heq : ckExpListLast cx st1 CExps.nil =
              .some (st1, .ok .none) := rfl
          rw [heq] at hr
          have h4 : st1 = st2 := by simpa using hr
          exact ⟨e, st, rfl, h2, by rw [he, h4, h1, h3]⟩
        · exact absurd hr (ckExpListLast_cons_ne_ok_none cx st1 e2 tl2 st2)
      · simp only [ckExpListLast, he, hr] at h
        obtain ⟨h1, h2⟩ : st2 = st' ∧ p2 = (lc, t) := by simpa using h
        obtain ⟨e', st0, hlast, hloc, hck⟩ :=
          ckExpListLast_last tl cx st1 st2 lc t (by rw [hr, h2])
        rcases tl with _ | ⟨e2, tl2⟩
        · simp [CExps.last] at hlast
        · refine ⟨e', st0, ?_, hloc, ?_⟩
          · simpa [CExps.last] using hlast
          · rw [hck, h1]

/-- C10.  Partiality of `ck_exp` on empty bodies: a `Sequence` with no
subexpressions, or a `let` with no body expressions (once its declarations
check), unwraps `None` and panics instead of reporting an error; a
successfully checked `Sequence` returns the type its last subexpression
checked to, and a successfully checked `let` returns the
substitution-resolved type of its last body expression. -/
theorem ck_exp_sequence_let_partiality :
    (∀ (cx : CCx) (st : CoreState) (l : Nat),
      ckExp cx st (.sequence .nil l) = Option.none) ∧
    (∀ (cx : CCx) (st : CoreState) (l : Nat) (dec : CDec) (st' : CoreState)
      (env : CEnv), ckDec cx st dec = .some (st', .ok env) →
      ckExp cx st (.letE dec .nil l) = Option.none) ∧
    (∀ (cx : CCx) (st : CoreState) (l : Nat) (exps : CExps) (st' : CoreState)
      (ty : CoreTy), ckExp cx st (.sequence exps l) = .some (st', .ok ty) →
      ∃ e st0, exps.last = .some e ∧ ckExp cx st0 e = .some (st', .ok ty)) ∧
    (∀ (cx : CCx) (st : CoreState) (l : Nat) (dec : CDec) (exps : CExps)
      (st' : CoreState) (ty : CoreTy),
      ckExp cx st (.letE dec exps l) = .some (st', .ok ty) →
      ∃ env st1 e st0 ty0, ckDec cx st dec = .some (st1, .ok env) ∧
        exps.last = .some e ∧
        ckExp (cx.oPlus env) st0 e = .some (st', .ok ty0) ∧
        ty = coreApply st'.subst ty0) := by
  refine ⟨fun cx st l => rfl, ?_, ?_, ?_⟩
  · intro cx st l dec st' env h
    simp [ckExp, h, ckExpListLast]
  · intro cx st l exps st' ty h
    rcases hr : ckExpList cx st exps with _ | ⟨st1, er | (_ | t1)⟩ <;>
      simp only [ckExp, hr] at h <;> try simp at h
    obtain ⟨h1, h2⟩ := h
    subst h1
    subst h2
    exact ckExpList_last exps cx st _ _ hr
  · intro cx st l dec exps st' ty h
    rcases hd : ckDec cx st dec with _ | ⟨st1, er | env⟩ <;>
      simp only [ckExp, hd] at h
    · simp at h
    · simp at h
    rcases hr : ckExpListLast (cx.oPlus env) st1 exps
        with _ | ⟨st2, er | (_ | ⟨lc, t0⟩)⟩ <;> rw [hr] at h <;> try simp at h
    by_cases hesc : tyNamesSubset (coreApply st2.subst t0) cx.tyNames
    · rw [if_neg (by simp [hesc])] at h
      obtain ⟨h1, h2⟩ : st2 = st' ∧ coreApply st2.subst t0 = ty := by
        simpa using h
      subst h1
      obtain ⟨e, st0, hlast, _, hck⟩ :=
        ckExpListLast_last exps (cx.oPlus env) st1 _ lc t0 hr
      exact ⟨env, st1, e, st0, t0, rfl, hlast, hck, h2.symm⟩
    · rw [if_pos (by simpa using hesc)] at h
      simp at h

theorem ck_exp_sequence_let_partiality_witness :
    ckExp ⟨[], CEnv.default⟩ ⟨[]⟩ (.letE (.seqDec .nil 0) .nil 5) =
      Option.none ∧
    ckExp ⟨[], CEnv.default⟩ ⟨[]⟩
        (.sequence (.cons (.str "a" 1) (.cons (.decInt 2 3) .nil)) 5) =
      .some (⟨[]⟩, .ok .INT) := by
  constructor
  · exact ck_exp_sequence_let_partiality.2.1 ⟨[], CEnv.default⟩ ⟨[]⟩ 5
      (.seqDec .nil 0) ⟨[]⟩ CEnv.default rfl
  · rfl

/-- C4 counterexample.  The repository's own expectation for checking
`fun true () = ()` (test `rebind_true`) is the type-mismatch diagnostic
`expected bool, found unit -> unit`, not a forbidden-binding diagnostic:
the claim that a forbidden-binding error is reported and no type-mismatch
error fails on this input. -/
theorem fun_true_reports_mismatch_not_forbidden :
    Tests.rebindTrueExpected = Tests.Diag.mismatch "bool" "unit -> unit" ∧
    Tests.rebindTrueExpected.isCannotRebind = false := by
  constructor <;> rfl

/-- C4 amended.  Checking `fun true () = ()` reports a type mismatch, not a
forbidden binding: the clause head `true` is resolved as a constructor
pattern of type `bool` (with no error recorded), whose unification with the
clause's `unit -> unit` function type necessarily fails; `ck_binding` — the
forbidden-rebinding check, which does reject `true` — is invoked for
val-binding pattern names and datatype constructor names, not for
function-clause heads; and the recorded test expectation is the mismatch
diagnostic. -/
theorem forbidden_rebinding_amended :
    (∀ l : Nat, ckBinding ⟨l, "true"⟩ =
      .error ⟨l, .forbiddenBinding "true"⟩) ∧
    (∀ (uf : UnifyFn) (n : Nat) (sub : Subst) (i : Nat),
      patGet uf ⟨Env.default⟩ ⟨[], n, sub⟩
        (.con ⟨[], "true"⟩ .none i) =
      .some ((Pat.conP (.variant .BOOL "true") .nil i, .con .nil .BOOL),
        ⟨[], n, sub⟩)) ∧
    ¬ Unifies (.con .nil .BOOL) (.fn Ty.unit Ty.unit) ∧
    Tests.rebindTrueExpected.isMismatch = true := by
  refine ⟨fun l => rfl, fun uf n sub i => rfl, ?_, rfl⟩
  intro h
  cases h
